import Mathlib

/-!
Verification of `scripts/view_jsonl.py`.

A file is modelled as a `List Char`, one entry per byte of the decoded
text, with `'\n'` the line terminator.  Byte offsets are positions in
this list.  Python's buffered text I/O is modelled by pure functions on
the list: `f.readline()` at position `pos` returns the elements from
`pos` up to and including the next `'\n'` (or to the end of the list),
and `f.tell()` is the explicit position argument threaded through the
indexing loop.
-/

/-- Splits a file suffix into the result of one `f.readline()` call
(line terminator included when present) and the unread remainder. -/
def splitLine : List Char → List Char × List Char
  | [] => ([], [])
  | c :: cs =>
    if c = '\n' then ([c], cs)
    else
      let p := splitLine cs
      (c :: p.1, p.2)

/-- Model of one Python `f.readline()` call on the unread suffix of the
file: the bytes up to and including the next line terminator, or to end
of file. -/
def readlineAux : List Char → List Char
  | [] => []
  | c :: cs => if c = '\n' then [c] else c :: readlineAux cs

/-- Model of Python `line.rstrip` applied with the newline character as
argument: removes every trailing `'\n'`. -/
def rstripNl : List Char → List Char
  | [] => []
  | c :: cs =>
    match rstripNl cs with
    | [] => if c = '\n' then [] else [c]
    | l :: ls => c :: l :: ls

mutual

/-- The loop of `create_offset_index`, scanning the unread suffix of the
file with `pos` the current value of `f.tell()`.  At the start of each
line the loop records `pos` and then lets `f.readline()` advance past
the line; `offsetsSkip` is the tail of that scan inside the current
line. -/
def offsetsAux : List Char → Nat → List Nat
  | [], _ => []
  | c :: cs, pos =>
    pos :: (if c = '\n' then offsetsAux cs (pos + 1) else offsetsSkip cs (pos + 1))

/-- Scanning past the remainder of the current line (the tail of one
`f.readline()` call) before the next offset is recorded. -/
def offsetsSkip : List Char → Nat → List Nat
  | [], _ => []
  | c :: cs, pos =>
    if c = '\n' then offsetsAux cs (pos + 1) else offsetsSkip cs (pos + 1)

end

/-- `create_offset_index(jsonl_path)`: the list of byte offsets at which
each line of the file starts. -/
def create_offset_index (file : List Char) : List Nat :=
  offsetsAux file 0

/-- `read_line_at_offset(jsonl_path, offset)`: seek to `offset`, read one
line, and strip the trailing terminator (`f.readline().rstrip("\n")`). -/
def read_line_at_offset (file : List Char) (offset : Nat) : List Char :=
  rstripNl (readlineAux (List.drop offset file))

/-- Modelled from the spec: the logical lines of a file — each maximal
run of bytes between one newline-delimited boundary and the next or end
of file, with the trailing terminator stripped; an empty file has no
lines and a final line without terminator still counts. -/
def logicalLines : List Char → List (List Char)
  | [] => []
  | c :: cs =>
    if c = '\n' then [] :: logicalLines cs
    else
      match logicalLines cs with
      | [] => [[c]]
      | l :: ls => (c :: l) :: ls

/-- The decomposition of the file into lines with their terminators kept:
the successive results of `f.readline()` during the indexing scan. -/
def linesWithTerm : List Char → List (List Char)
  | [] => []
  | c :: cs =>
    if c = '\n' then ['\n'] :: linesWithTerm cs
    else
      match linesWithTerm cs with
      | [] => [[c]]
      | l :: ls => (c :: l) :: ls

/-- Cost model of one `read_line_at_offset` call: the number of bytes the
reader consumes after seeking to `offset` (the length of the single
`f.readline()` result). -/
def bytesRead (file : List Char) (offset : Nat) : Nat :=
  (readlineAux (List.drop offset file)).length

/-- A sequence of reader calls against the same file and offset table,
one per requested index, in order. -/
def readSeq (file : List Char) (offsets : List Nat) (reqs : List Nat) : List (List Char) :=
  reqs.map fun i => read_line_at_offset file (offsets.getD i 0)

/-!
JSON values. `json.loads` produces nested dicts, lists, strings,
numbers, booleans and null; a dict is modelled as its ordered list of
key/value pairs (Python dicts preserve insertion order and `json.dumps`
serialises them in that order).  Numbers are modelled as integers;
floating point payloads are outside the scope of the embedding.
-/

inductive JValue where
  | null : JValue
  | bool (b : Bool) : JValue
  | num (n : Int) : JValue
  | str (s : List Char) : JValue
  | arr (elems : List JValue) : JValue
  | obj (members : List (List Char × JValue)) : JValue

/-- The opening brace character, spelled via its code point. -/
def lbrace : Char := Char.ofNat 123

/-- The closing brace character, spelled via its code point. -/
def rbrace : Char := Char.ofNat 125

/-- The two-space indentation prefix used by `indent_json_2levels` at a
given nesting level (`"  " * level`). -/
def indentSp (level : Nat) : List Char := List.replicate (2 * level) ' '

/-- The decimal digit character for `d < 10`. -/
def digitChar48 (d : Nat) : Char := Char.ofNat (48 + d)

/-- Decimal rendering of a natural number, fuelled so that the recursion
is structural; `fuel > n` always suffices. -/
def natReprAux : Nat → Nat → List Char
  | 0, _ => []
  | fuel + 1, n =>
    if n < 10 then [digitChar48 n]
    else natReprAux fuel (n / 10) ++ [digitChar48 (n % 10)]

/-- Decimal rendering of a natural number (`str(n)` in Python). -/
def natRepr (n : Nat) : List Char := natReprAux (n + 1) n

/-- Decimal rendering of an integer, as produced by `json.dumps` for an
`int` payload. -/
def intRepr (n : Int) : List Char :=
  if n < 0 then '-' :: natRepr n.natAbs else natRepr n.natAbs

/-- The lowercase hexadecimal digit character for `m < 16`. -/
def hexLowerChar (m : Nat) : Char :=
  if m < 10 then digitChar48 m else Char.ofNat (97 + (m - 10))

/-- The escape sequence `json.dumps` emits for one character inside a
string literal: two-character escapes for the quote, backslash and the
common control characters, a `\u00XX` escape for the remaining control
characters, and the character itself otherwise.  (`ensure_ascii`
escaping of characters above U+007F is not modelled; it does not affect
any property proved here.) -/
def escapeChar (c : Char) : List Char :=
  if c = '"' then ['\\', '"']
  else if c = '\\' then ['\\', '\\']
  else if c = '\n' then ['\\', 'n']
  else if c = '\t' then ['\\', 't']
  else if c = '\r' then ['\\', 'r']
  else if c.toNat = 8 then ['\\', 'b']
  else if c.toNat = 12 then ['\\', 'f']
  else if c.toNat < 32 then
    ['\\', 'u', '0', '0', hexLowerChar (c.toNat / 16), hexLowerChar (c.toNat % 16)]
  else [c]

/-- A JSON string literal as emitted by `json.dumps`: quoted, with each
character escaped. -/
def escapeString (s : List Char) : List Char :=
  '"' :: (s.map escapeChar).flatten ++ ['"']

/-- Comma-separated concatenation, as produced by the `","` item
separator of `json.dumps(obj, separators=(",", ":"))`. -/
def commaJoin (ls : List (List Char)) : List Char :=
  List.intercalate [','] ls

/-- `json.dumps(obj, separators=(",", ":"))`: the compact single-line
serialisation used by `indent_json_2levels` at or beyond the cutoff
level. -/
def dumps : JValue → List Char
  | .null => 'n' :: 'u' :: 'l' :: 'l' :: []
  | .bool true => 't' :: 'r' :: 'u' :: 'e' :: []
  | .bool false => 'f' :: 'a' :: 'l' :: 's' :: 'e' :: []
  | .num n => intRepr n
  | .str s => escapeString s
  | .arr es => '[' :: commaJoin (es.attach.map fun e => dumps e.1) ++ [']']
  | .obj ms =>
    lbrace ::
      commaJoin (ms.attach.map fun m => escapeString m.1.1 ++ ':' :: dumps m.1.2) ++ [rbrace]
termination_by v => sizeOf v
decreasing_by
  · have h1 := List.sizeOf_lt_of_mem e.2
    simp only [JValue.arr.sizeOf_spec]
    omega
  · have h1 := List.sizeOf_lt_of_mem m.2
    have h2 : sizeOf m.1.2 < sizeOf m.1 := by
      obtain ⟨⟨k, v⟩, hm⟩ := m
      simp only [Prod.mk.sizeOf_spec]
      omega
    simp only [JValue.obj.sizeOf_spec]
    omega

/-- Joining a list of rendered lines with `"\n".join(lines)`. -/
def joinNl (ls : List (List Char)) : List Char :=
  List.intercalate ['\n'] ls

/-- A comma is appended to every rendered entry line except the last,
mirroring the `if i < len(items) - 1: line += ","` step of
`indent_json_2levels`. -/
def withCommas : List (List Char) → List (List Char)
  | [] => []
  | [l] => [l]
  | l :: ls => (l ++ [',']) :: withCommas ls

/-- `indent_json_2levels(obj, current_level, max_level)`: pretty-prints
only the outermost `max_level` levels of nesting, one key or element per
line with two-space indentation, and serialises anything at or beyond
the cutoff — and any scalar — compactly via `dumps`.  Dict keys are
interpolated verbatim between quotes (`f'"..."'`), without escaping. -/
def indent_json_2levels : JValue → Nat → Nat → List Char
  | v, current, maxLevel =>
    if maxLevel ≤ current then dumps v
    else
      match v with
      | .obj ms =>
        joinNl
          ([lbrace] ::
            withCommas
              (ms.attach.map fun m =>
                indentSp (current + 1) ++ '"' :: m.1.1 ++ '"' :: ':' :: ' ' ::
                  indent_json_2levels m.1.2 (current + 1) maxLevel) ++
            [indentSp current ++ [rbrace]])
      | .arr es =>
        joinNl
          (['['] ::
            withCommas
              (es.attach.map fun e =>
                indentSp (current + 1) ++
                  indent_json_2levels e.1 (current + 1) maxLevel) ++
            [indentSp current ++ [']']])
      | v => dumps v
termination_by v _ _ => sizeOf v
decreasing_by
  · have h1 := List.sizeOf_lt_of_mem m.2
    have h2 : sizeOf m.1.2 < sizeOf m.1 := by
      obtain ⟨⟨k, w⟩, hm⟩ := m
      simp only [Prod.mk.sizeOf_spec]
      omega
    simp only [JValue.obj.sizeOf_spec]
    omega
  · have h1 := List.sizeOf_lt_of_mem e.2
    simp only [JValue.arr.sizeOf_spec]
    omega

/-!
A model of `json.loads`, used by `browse_jsonl` on every displayed line.
The parser follows the JSON grammar for objects, arrays, strings,
integers, booleans and null, skipping insignificant whitespace between
tokens; string literals decode the escape sequences `escapeChar` can
produce.  (Floating point literals and the rejection of leading zeros
are not modelled.)  The recursion is fuelled so that it is structural;
`jsonLoads` supplies one unit of fuel per input character plus one,
which is more than any parse can consume.
-/

/-- The JSON insignificant-whitespace characters (space, tab, newline,
carriage return), tested by code point. -/
def isWsChar (c : Char) : Bool :=
  c.toNat = 32 || c.toNat = 9 || c.toNat = 10 || c.toNat = 13

/-- Skip insignificant whitespace. -/
def skipWs (s : List Char) : List Char := s.dropWhile isWsChar

/-- ASCII decimal digit test. -/
def isDigit09 (c : Char) : Bool := 48 ≤ c.toNat && c.toNat ≤ 57

/-- The numeric value of a list of ASCII digit characters. -/
def digitsVal (s : List Char) : Nat :=
  s.foldl (fun a c => a * 10 + (c.toNat - 48)) 0

/-- The character a two-character escape sequence stands for, if the
escape is a valid one. -/
def unescapeChar (e : Char) : Option Char :=
  if e = '"' then some '"'
  else if e = '\\' then some '\\'
  else if e = '/' then some '/'
  else if e = 'n' then some '\n'
  else if e = 't' then some '\t'
  else if e = 'r' then some '\r'
  else if e = 'b' then some (Char.ofNat 8)
  else if e = 'f' then some (Char.ofNat 12)
  else none

/-- The value of one hexadecimal digit character, if it is one. -/
def hexDigitVal (c : Char) : Option Nat :=
  if 48 ≤ c.toNat ∧ c.toNat ≤ 57 then some (c.toNat - 48)
  else if 97 ≤ c.toNat ∧ c.toNat ≤ 102 then some (c.toNat - 97 + 10)
  else if 65 ≤ c.toNat ∧ c.toNat ≤ 70 then some (c.toNat - 65 + 10)
  else none

/-- Parses the body of a JSON string literal (the opening quote already
consumed), returning the decoded characters and the rest of the input. -/
def parseStrAux : List Char → Option (List Char × List Char)
  | [] => none
  | c :: cs =>
    if c = '"' then some ([], cs)
    else if c = '\\' then
      match cs with
      | [] => none
      | 'u' :: h1 :: h2 :: h3 :: h4 :: cs2 =>
        match hexDigitVal h1, hexDigitVal h2, hexDigitVal h3, hexDigitVal h4 with
        | some a, some b, some c1, some d =>
          (parseStrAux cs2).map fun p =>
            (Char.ofNat (((a * 16 + b) * 16 + c1) * 16 + d) :: p.1, p.2)
        | _, _, _, _ => none
      | e :: cs2 =>
        match unescapeChar e with
        | some d => (parseStrAux cs2).map fun p => (d :: p.1, p.2)
        | none => none
    else if c.toNat < 32 then none
    else (parseStrAux cs).map fun p => (c :: p.1, p.2)

/-- Parses a JSON integer literal: an optional minus sign followed by a
nonempty digit run, consuming the maximal run of digits. -/
def parseNum (s : List Char) : Option (JValue × List Char) :=
  match s with
  | '-' :: rest =>
    let ds := rest.takeWhile isDigit09
    if ds = [] then none
    else some (.num (-(Int.ofNat (digitsVal ds))), rest.dropWhile isDigit09)
  | _ =>
    let ds := s.takeWhile isDigit09
    if ds = [] then none
    else some (.num (Int.ofNat (digitsVal ds)), s.dropWhile isDigit09)

mutual

/-- Parses one JSON value after skipping leading whitespace. -/
def parseVal : Nat → List Char → Option (JValue × List Char)
  | 0, _ => none
  | fuel + 1, s =>
    match skipWs s with
    | [] => none
    | c :: cs =>
      if c = 'n' then
        if ['u', 'l', 'l'].isPrefixOf cs then some (.null, cs.drop 3) else none
      else if c = 't' then
        if ['r', 'u', 'e'].isPrefixOf cs then some (.bool true, cs.drop 3) else none
      else if c = 'f' then
        if ['a', 'l', 's', 'e'].isPrefixOf cs then some (.bool false, cs.drop 4) else none
      else if c = '"' then
        (parseStrAux cs).map fun p => (.str p.1, p.2)
      else if c = '[' then
        match skipWs cs with
        | ']' :: rest => some (.arr [], rest)
        | s1 => (parseElems fuel s1).map fun p => (.arr p.1, p.2)
      else if c = lbrace then
        match skipWs cs with
        | d :: rest =>
          if d = rbrace then some (.obj [], rest)
          else (parseMembers fuel (d :: rest)).map fun p => (.obj p.1, p.2)
        | [] => none
      else if c = '-' ∨ isDigit09 c then parseNum (c :: cs)
      else none

/-- Parses the nonempty element list of a JSON array, up to and
including the closing bracket. -/
def parseElems : Nat → List Char → Option (List JValue × List Char)
  | 0, _ => none
  | fuel + 1, s => do
    let (v, r) ← parseVal fuel s
    match skipWs r with
    | ']' :: r2 => some ([v], r2)
    | ',' :: r2 => do
      let (vs, r3) ← parseElems fuel r2
      some (v :: vs, r3)
    | _ => none

/-- Parses the nonempty member list of a JSON object, up to and
including the closing brace. -/
def parseMembers : Nat → List Char → Option (List (List Char × JValue) × List Char)
  | 0, _ => none
  | fuel + 1, s =>
    match skipWs s with
    | '"' :: cs => do
      let (k, r) ← parseStrAux cs
      match skipWs r with
      | ':' :: r2 => do
        let (v, r3) ← parseVal fuel r2
        match skipWs r3 with
        | c :: r4 =>
          if c = rbrace then some ([(k, v)], r4)
          else if c = ',' then do
            let (ms, r5) ← parseMembers fuel r4
            some ((k, v) :: ms, r5)
          else none
        | [] => none
      | _ => none
    | _ => none

end

/-- `json.loads(s)`: parse one JSON value and require only whitespace to
remain. -/
def jsonLoads (s : List Char) : Option JValue :=
  match parseVal (s.length + 1) s with
  | some (v, rest) => if skipWs rest = [] then some v else none
  | none => none

/-- Whether every object key in the value is free of characters that
need JSON string escaping: no double quote, no backslash, no control
character.  `indent_json_2levels` interpolates keys verbatim, so its
output is guaranteed to re-parse only under this condition. -/
def goodKeyChar (c : Char) : Bool :=
  !(c = '"' || c = '\\' || c.toNat < 32)

/-- `goodKeysB v` holds when every dict key anywhere inside `v` consists
only of `goodKeyChar` characters. -/
def goodKeysB : JValue → Bool
  | .null | .bool _ | .num _ | .str _ => true
  | .arr es => es.attach.all fun e => goodKeysB e.1
  | .obj ms => ms.attach.all fun m => m.1.1.all goodKeyChar && goodKeysB m.1.2
termination_by v => sizeOf v
decreasing_by
  · have h1 := List.sizeOf_lt_of_mem e.2
    simp only [JValue.arr.sizeOf_spec]
    omega
  · have h1 := List.sizeOf_lt_of_mem m.2
    have h2 : sizeOf m.1.2 < sizeOf m.1 := by
      obtain ⟨⟨k, v⟩, hm⟩ := m
      simp only [Prod.mk.sizeOf_spec]
      omega
    simp only [JValue.obj.sizeOf_spec]
    omega

/-- An upper bound on the parser fuel one value consumes: one unit per
`parseVal` entry plus one per `parseElems`/`parseMembers` iteration. -/
def jsize : JValue → Nat
  | .null | .bool _ | .num _ | .str _ => 1
  | .arr es => 1 + (es.attach.map fun e => jsize e.1).sum + es.length
  | .obj ms => 1 + (ms.attach.map fun m => jsize m.1.2).sum + ms.length
termination_by v => sizeOf v
decreasing_by
  · have h1 := List.sizeOf_lt_of_mem e.2
    simp only [JValue.arr.sizeOf_spec]
    omega
  · have h1 := List.sizeOf_lt_of_mem m.2
    have h2 : sizeOf m.1.2 < sizeOf m.1 := by
      obtain ⟨⟨k, v⟩, hm⟩ := m
      simp only [Prod.mk.sizeOf_spec]
      omega
    simp only [JValue.obj.sizeOf_spec]
    omega

/-!
The interactive query session of `browse_jsonl`.  One loop iteration is
modelled as a pure step function on the user's input line; `random.randint`
is modelled by an oracle `draw`, reduced into the valid range, so that
every in-range index corresponds to some draw.
-/

/-- The whitespace characters stripped by Python `str.strip()` (ASCII
range), tested by code point. -/
def isPyWs (c : Char) : Bool :=
  c.toNat = 32 || c.toNat = 9 || c.toNat = 10 || c.toNat = 13 ||
    c.toNat = 11 || c.toNat = 12

/-- Model of `str.strip()`: remove leading and trailing whitespace. -/
def pyStrip (s : List Char) : List Char :=
  ((s.dropWhile isPyWs).reverse.dropWhile isPyWs).reverse

/-- Model of `str.lower()` (ASCII range). -/
def pyLower (s : List Char) : List Char := s.map Char.toLower

/-- Model of `str.isdigit()` (ASCII range): nonempty and all decimal
digits. -/
def pyIsDigit (s : List Char) : Bool := !s.isEmpty && s.all isDigit09

/-- The classification `browse_jsonl` applies to one line of user input
after `.strip().lower()`: the quit token, the random token, a
non-negative integer, or an invalid command. -/
inductive Command where
  | cquit : Command
  | crandom : Command
  | cindex (n : Nat) : Command
  | cinvalid : Command
deriving DecidableEq

/-- Parses one line of user input the way the `browse_jsonl` loop does:
strip and lowercase, compare against the literal tokens, then try
`isdigit`/`int`. -/
def parseCommand (input : List Char) : Command :=
  let u := pyLower (pyStrip input)
  if u = ['q', 'u', 'i', 't'] then .cquit
  else if u = ['r', 'a', 'n', 'd', 'o', 'm'] then .crandom
  else if pyIsDigit u then .cindex (digitsVal u)
  else .cinvalid

/-- The observable result of one iteration of the `browse_jsonl` loop:
exit on quit; the empty-file message for a random request with no lines;
a displayed line (its index, the raw text returned by the reader, and
the pretty-printed rendering); an uncaught `json.loads` error on the
raw text of a displayed line, which terminates the process; the
out-of-range error message; or the invalid-command error message. -/
inductive Outcome where
  | exit : Outcome
  | emptyRandom : Outcome
  | showLine (idx : Nat) (raw : List Char) (rendered : List Char) : Outcome
  | crash (idx : Nat) (raw : List Char) : Outcome
  | outOfRange : Outcome
  | invalidCmd : Outcome
deriving DecidableEq

/-- The shared display path of `browse_jsonl` for a valid index: read the
line at `offsets[idx]`, parse it with `json.loads`, and render it with
`indent_json_2levels`; a parse failure is an uncaught exception. -/
def displayLine (file : List Char) (offsets : List Nat) (idx : Nat)
    (h : idx < offsets.length) : Outcome :=
  let raw := read_line_at_offset file (offsets.get ⟨idx, h⟩)
  match jsonLoads raw with
  | some v => .showLine idx raw (indent_json_2levels v 0 2)
  | none => .crash idx raw

/-- One iteration of the `browse_jsonl` loop on input `input`, with
`draw` the oracle for `random.randint(0, total_lines - 1)`. -/
def sessionStep (file : List Char) (offsets : List Nat) (input : List Char)
    (draw : Nat) : Outcome :=
  match parseCommand input with
  | .cquit => .exit
  | .crandom =>
    if h : offsets.length = 0 then .emptyRandom
    else
      displayLine file offsets (draw % offsets.length)
        (Nat.mod_lt draw (Nat.pos_of_ne_zero h))
  | .cindex n =>
    if h : n < offsets.length then displayLine file offsets n h
    else .outOfRange
  | .cinvalid => .invalidCmd

/-- A full `browse_jsonl` iteration including the index built at session
start. -/
def browse_jsonl_step (file input : List Char) (draw : Nat) : Outcome :=
  sessionStep file (create_offset_index file) input draw

/-- Whether the session loop keeps running after an outcome: it stops
only on the quit command or on the uncaught `json.loads` exception. -/
def continues : Outcome → Bool
  | .exit => false
  | .crash _ _ => false
  | _ => true

/-- The number of `read_line_at_offset` calls (seek plus read) the code
path behind an outcome performed. -/
def readCount : Outcome → Nat
  | .showLine _ _ _ => 1
  | .crash _ _ => 1
  | _ => 0

/-- The error message printed for an outcome that reports a problem,
with `total` the line count of the session (empty for the others). -/
def outcomeMessage (total : Nat) : Outcome → List Char
  | .outOfRange =>
    ('I' :: 'n' :: 'v' :: 'a' :: 'l' :: 'i' :: 'd' :: ' ' :: 'i' :: 'n' :: 'd' :: 'e' ::
      'x' :: '.' :: ' ' :: 'M' :: 'u' :: 's' :: 't' :: ' ' :: 'b' :: 'e' :: ' ' :: 'i' ::
      'n' :: ' ' :: '[' :: '0' :: '.' :: '.' :: []) ++ natRepr (total - 1) ++ [']', '.']
  | .invalidCmd =>
    'I' :: 'n' :: 'v' :: 'a' :: 'l' :: 'i' :: 'd' :: ' ' :: 'c' :: 'o' :: 'm' :: 'm' ::
      'a' :: 'n' :: 'd' :: '.' :: ' ' :: 'T' :: 'y' :: 'p' :: 'e' :: ' ' :: 'a' :: 'n' ::
      ' ' :: 'i' :: 'n' :: 't' :: 'e' :: 'g' :: 'e' :: 'r' :: ',' :: ' ' :: Char.ofNat 39 :: 'r' ::
      'a' :: 'n' :: 'd' :: 'o' :: 'm' :: Char.ofNat 39 :: ',' :: ' ' :: 'o' :: 'r' :: ' ' :: Char.ofNat 39 ::
      'q' :: 'u' :: 'i' :: 't' :: Char.ofNat 39 :: '.' :: []
  | .emptyRandom =>
    'T' :: 'h' :: 'e' :: ' ' :: 'f' :: 'i' :: 'l' :: 'e' :: ' ' :: 'i' :: 's' :: ' ' ::
      'e' :: 'm' :: 'p' :: 't' :: 'y' :: []
  | _ => []

/-- The session loop over a list of (input, draw) iterations: outcomes
are produced in order until one stops the loop. -/
def sessionRun (file : List Char) (offsets : List Nat) :
    List (List Char × Nat) → List Outcome
  | [] => []
  | (inp, d) :: rest =>
    let o := sessionStep file offsets inp d
    o :: (if continues o then sessionRun file offsets rest else [])

/-!
Supporting lemmas: the line splitter, the readline model, and the
terminator stripper.
-/

theorem splitLine_append : ∀ rem : List Char, (splitLine rem).1 ++ (splitLine rem).2 = rem := by
  intro rem
  induction rem with
  | nil => rfl
  | cons c cs ih =>
    by_cases h : c = '\n'
    · simp [splitLine, h]
    · simp [splitLine, h, ih]

theorem splitLine_fst_ne_nil : ∀ {rem : List Char}, rem ≠ [] → (splitLine rem).1 ≠ [] := by
  intro rem h
  cases rem with
  | nil => exact absurd rfl h
  | cons c cs =>
    by_cases hc : c = '\n' <;> simp [splitLine, hc]

theorem readlineAux_eq : ∀ rem : List Char, readlineAux rem = (splitLine rem).1 := by
  intro rem
  induction rem with
  | nil => rfl
  | cons c cs ih =>
    by_cases h : c = '\n'
    · simp [readlineAux, splitLine, h]
    · simp [readlineAux, splitLine, h, ih]

theorem splitLine_snd_length : ∀ {rem : List Char}, rem ≠ [] →
    (splitLine rem).2.length < rem.length := by
  intro rem h
  have h1 := splitLine_append rem
  have h2 := splitLine_fst_ne_nil h
  have h3 : (splitLine rem).1.length + (splitLine rem).2.length = rem.length := by
    rw [← List.length_append, h1]
  have h4 : 0 < (splitLine rem).1.length := List.length_pos.mpr h2
  omega

theorem splitLine_fst_structure : ∀ rem : List Char,
    ('\n' ∉ (splitLine rem).1 ∧ (splitLine rem).2 = []) ∨
      (∃ l, (splitLine rem).1 = l ++ ['\n'] ∧ '\n' ∉ l) := by
  intro rem
  induction rem with
  | nil => exact Or.inl ⟨by simp [splitLine], rfl⟩
  | cons c cs ih =>
    by_cases h : c = '\n'
    · right
      exact ⟨[], by simp [splitLine, h], by simp⟩
    · rcases ih with ⟨h1, h2⟩ | ⟨l, h1, h2⟩
      · left
        constructor
        · simp only [splitLine, h, if_false, ite_false, List.mem_cons, not_or]
          exact ⟨fun hc => h hc.symm, h1⟩
        · simp [splitLine, h, h2]
      · right
        refine ⟨c :: l, ?_, ?_⟩
        · simp [splitLine, h, h1]
        · simp [h2]
          exact fun hc => absurd hc.symm h

theorem rstripNl_cons : ∀ {c : Char} {l : List Char}, c ≠ '\n' →
    rstripNl (c :: l) = c :: rstripNl l := by
  intro c l h
  cases hl : rstripNl l with
  | nil => simp [rstripNl, hl, h]
  | cons x xs => simp [rstripNl, hl]

theorem rstripNl_no_nl : ∀ {l : List Char}, '\n' ∉ l → rstripNl l = l := by
  intro l
  induction l with
  | nil => intro _; rfl
  | cons c cs ih =>
    intro h
    have hc : c ≠ '\n' := fun hc => h (hc ▸ List.mem_cons_self c cs)
    have hcs : '\n' ∉ cs := fun hm => h (List.mem_cons_of_mem c hm)
    rw [rstripNl_cons hc, ih hcs]

theorem rstripNl_append_nl : ∀ l : List Char, rstripNl (l ++ ['\n']) = rstripNl l := by
  intro l
  induction l with
  | nil => rfl
  | cons c cs ih =>
    by_cases h : c = '\n'
    · subst h
      show rstripNl ('\n' :: (cs ++ ['\n'])) = _
      cases h2 : rstripNl (cs ++ ['\n']) with
      | nil => simp [rstripNl, h2, ih.symm.trans h2]
      | cons x xs =>
        have h3 : rstripNl cs = x :: xs := ih.symm.trans h2
        simp [rstripNl, h2, h3]
    · rw [List.cons_append, rstripNl_cons h, rstripNl_cons h, ih]

/-!
Supporting lemmas: unfolding the indexing scan one full line at a time,
and the induced line decompositions.
-/

theorem offsetsSkip_eq : ∀ (cs : List Char) (pos : Nat),
    offsetsSkip cs pos = offsetsAux (splitLine cs).2 (pos + (splitLine cs).1.length) := by
  intro cs
  induction cs with
  | nil => intro pos; rfl
  | cons c cs ih =>
    intro pos
    by_cases h : c = '\n'
    · simp [offsetsSkip, splitLine, h]
    · simp only [offsetsSkip, splitLine, h, if_false, ite_false]
      rw [ih (pos + 1)]
      congr 1
      simp
      omega

theorem offsetsAux_cons : ∀ {rem : List Char}, rem ≠ [] → ∀ pos : Nat,
    offsetsAux rem pos = pos :: offsetsAux (splitLine rem).2 (pos + (splitLine rem).1.length) := by
  intro rem h pos
  cases rem with
  | nil => exact absurd rfl h
  | cons c cs =>
    by_cases hc : c = '\n'
    · simp [offsetsAux, splitLine, hc]
    · simp only [offsetsAux, splitLine, hc, if_false, ite_false]
      rw [offsetsSkip_eq cs (pos + 1)]
      congr 2
      simp
      omega

theorem logicalLines_cons : ∀ {rem : List Char}, rem ≠ [] →
    logicalLines rem = rstripNl (splitLine rem).1 :: logicalLines (splitLine rem).2 := by
  intro rem
  induction rem with
  | nil => intro h; exact absurd rfl h
  | cons c cs ih =>
    intro _
    by_cases h : c = '\n'
    · simp [logicalLines, splitLine, h, rstripNl]
    · by_cases hcs : cs = []
      · subst hcs
        simp [logicalLines, splitLine, h, rstripNl]
      · have ihcs := ih hcs
        have hsplit1 : (splitLine (c :: cs)).1 = c :: (splitLine cs).1 := by
          simp [splitLine, h]
        have hsplit2 : (splitLine (c :: cs)).2 = (splitLine cs).2 := by
          simp [splitLine, h]
        rw [hsplit1, hsplit2, rstripNl_cons h]
        simp only [logicalLines, h, if_false, ite_false, ihcs]

theorem linesWithTerm_cons : ∀ {rem : List Char}, rem ≠ [] →
    linesWithTerm rem = (splitLine rem).1 :: linesWithTerm (splitLine rem).2 := by
  intro rem
  induction rem with
  | nil => intro h; exact absurd rfl h
  | cons c cs ih =>
    intro _
    by_cases h : c = '\n'
    · simp [linesWithTerm, splitLine, h]
    · by_cases hcs : cs = []
      · subst hcs
        simp [linesWithTerm, splitLine, h]
      · have ihcs := ih hcs
        have hsplit1 : (splitLine (c :: cs)).1 = c :: (splitLine cs).1 := by
          simp [splitLine, h]
        have hsplit2 : (splitLine (c :: cs)).2 = (splitLine cs).2 := by
          simp [splitLine, h]
        rw [hsplit1, hsplit2]
        simp only [linesWithTerm, h, if_false, ite_false, ihcs]

/-- The central correspondence: reading at the `i`-th recorded offset of
the indexing scan started at position `pos` yields the `i`-th logical
line of the unread suffix. -/
theorem offsetsAux_reads : ∀ (n : Nat) (rem : List Char), rem.length ≤ n →
    ∀ (pos : Nat) (file : List Char), List.drop pos file = rem →
      ∀ i : Nat, ((offsetsAux rem pos)[i]?).map (read_line_at_offset file) =
        (logicalLines rem)[i]? := by
  intro n
  induction n with
  | zero =>
    intro rem hn pos file hdrop i
    have : rem = [] := List.eq_nil_of_length_eq_zero (Nat.le_zero.mp hn)
    subst this
    rfl
  | succ n ih =>
    intro rem hn pos file hdrop i
    by_cases hrem : rem = []
    · subst hrem; rfl
    · rw [offsetsAux_cons hrem pos, logicalLines_cons hrem]
      cases i with
      | zero =>
        simp only [List.getElem?_cons_zero, Option.map_some]
        show some (rstripNl (readlineAux (List.drop pos file))) = _
        rw [hdrop, readlineAux_eq]
      | succ i =>
        simp only [List.getElem?_cons_succ]
        have hlen : (splitLine rem).2.length ≤ n := by
          have := splitLine_snd_length hrem
          omega
        have hdrop2 : List.drop (pos + (splitLine rem).1.length) file = (splitLine rem).2 := by
          have h2 := List.drop_left (splitLine rem).1 (splitLine rem).2
          rw [splitLine_append rem] at h2
          rw [← h2, ← hdrop, List.drop_drop]
        exact ih (splitLine rem).2 hlen _ file hdrop2 i

/-- The indexing scan records one offset per logical line. -/
theorem offsetsAux_length : ∀ (n : Nat) (rem : List Char), rem.length ≤ n →
    ∀ pos : Nat, (offsetsAux rem pos).length = (logicalLines rem).length := by
  intro n
  induction n with
  | zero =>
    intro rem hn pos
    have : rem = [] := List.eq_nil_of_length_eq_zero (Nat.le_zero.mp hn)
    subst this
    rfl
  | succ n ih =>
    intro rem hn pos
    by_cases hrem : rem = []
    · subst hrem; rfl
    · rw [offsetsAux_cons hrem pos, logicalLines_cons hrem]
      simp only [List.length_cons]
      have hlen : (splitLine rem).2.length ≤ n := by
        have := splitLine_snd_length hrem
        omega
      rw [ih (splitLine rem).2 hlen]

/-- Every offset the scan records from position `pos` onwards is at
least `pos`. -/
theorem offsetsAux_lower : ∀ (n : Nat) (rem : List Char), rem.length ≤ n →
    ∀ (pos x : Nat), x ∈ offsetsAux rem pos → pos ≤ x := by
  intro n
  induction n with
  | zero =>
    intro rem hn pos x hx
    have : rem = [] := List.eq_nil_of_length_eq_zero (Nat.le_zero.mp hn)
    subst this
    simp [offsetsAux] at hx
  | succ n ih =>
    intro rem hn pos x hx
    by_cases hrem : rem = []
    · subst hrem; simp [offsetsAux] at hx
    · rw [offsetsAux_cons hrem pos] at hx
      rcases List.mem_cons.mp hx with h | h
      · omega
      · have hlen : (splitLine rem).2.length ≤ n := by
          have := splitLine_snd_length hrem
          omega
        have := ih (splitLine rem).2 hlen _ x h
        omega

/-- The recorded offsets are strictly increasing. -/
theorem offsetsAux_chain : ∀ (n : Nat) (rem : List Char), rem.length ≤ n →
    ∀ pos : Nat, List.Chain' (· < ·) (offsetsAux rem pos) := by
  intro n
  induction n with
  | zero =>
    intro rem hn pos
    have : rem = [] := List.eq_nil_of_length_eq_zero (Nat.le_zero.mp hn)
    subst this
    simp [offsetsAux]
  | succ n ih =>
    intro rem hn pos
    by_cases hrem : rem = []
    · subst hrem; simp [offsetsAux]
    · rw [offsetsAux_cons hrem pos]
      have hlen : (splitLine rem).2.length ≤ n := by
        have := splitLine_snd_length hrem
        omega
      refine List.chain'_cons'.mpr ⟨?_, ih (splitLine rem).2 hlen _⟩
      intro b hb
      have hmem : b ∈ offsetsAux (splitLine rem).2 (pos + (splitLine rem).1.length) :=
        List.mem_of_mem_head? hb
      have hlb := offsetsAux_lower n (splitLine rem).2 hlen _ b hmem
      have hpos : 0 < (splitLine rem).1.length :=
        List.length_pos.mpr (splitLine_fst_ne_nil hrem)
      omega

/-- Claim C1: for every file and every index, reading at the `i`-th
entry of the offset table built by `create_offset_index` returns exactly
the `i`-th logical line of the file, terminator stripped, byte for byte
(first, middle and last lines alike, the empty result for blank lines
included); both sides are absent exactly when `i` is out of range. -/
theorem readLine_returns_ith_logical_line :
    ∀ (file : List Char) (i : Nat),
      ((create_offset_index file)[i]?).map (read_line_at_offset file) =
        (logicalLines file)[i]? := by
  intro file i
  exact offsetsAux_reads file.length file (le_refl _) 0 file (List.drop_zero file) i

/-- Claim C2: the offset table built by `create_offset_index` has
exactly one entry per logical line of the file — an empty file gives an
empty table, a final unterminated line still gets an entry, and blank
lines are counted like any other line. -/
theorem offset_table_length_eq_line_count :
    ∀ file : List Char,
      (create_offset_index file).length = (logicalLines file).length := by
  intro file
  exact offsetsAux_length file.length file (le_refl _) 0

/-- Claim C3: the offset table is strictly increasing entry to entry,
starts with offset `0` whenever the file is nonempty, and is empty
exactly when the file is empty. -/
theorem offset_table_invariants :
    ∀ file : List Char,
      (∀ i a b, (create_offset_index file)[i]? = some a →
        (create_offset_index file)[i + 1]? = some b → a < b) ∧
      (file ≠ [] → (create_offset_index file)[0]? = some 0) ∧
      (create_offset_index file = [] ↔ file = []) := by
  intro file
  refine ⟨?_, ?_, ?_, ?_⟩
  · intro i a b ha hb
    have hchain : List.Chain' (· < ·) (create_offset_index file) :=
      offsetsAux_chain file.length file (le_refl _) 0
    have hpair := List.chain'_iff_pairwise.mp hchain
    obtain ⟨hia, hga⟩ := List.getElem?_eq_some.mp ha
    obtain ⟨hib, hgb⟩ := List.getElem?_eq_some.mp hb
    have := (List.pairwise_iff_getElem.mp hpair) i (i + 1) hia hib (by omega)
    rw [hga, hgb] at this
    exact this
  · intro hne
    unfold create_offset_index
    rw [offsetsAux_cons hne 0]
    simp
  · intro hempty
    by_contra hne
    rw [show create_offset_index file = offsetsAux file 0 from rfl,
      offsetsAux_cons hne 0] at hempty
    exact List.cons_ne_nil _ _ hempty
  · intro hfile
    subst hfile
    rfl

/-- Witness for C3 at the concrete file `"a\nb"`: the first two offsets
are ordered and the table starts at 0. -/
theorem offset_table_invariants_witness :
    (0 : Nat) < 2 ∧ (create_offset_index ('a' :: '\n' :: 'b' :: []))[0]? = some 0 := by
  have h := offset_table_invariants ('a' :: '\n' :: 'b' :: [])
  exact ⟨h.1 0 0 2 (by decide) (by decide), h.2.1 (by decide)⟩

/-- Claim C7: the reader is a pure function of the file and the offset:
within any sequence of reads the result at a request position depends
only on the requested index, not on the surrounding requests, and
reading the same index twice returns identical text. -/
theorem readLine_idempotent_order_free :
    ∀ (file : List Char) (offsets : List Nat) (pre post : List Nat) (i : Nat),
      i < offsets.length →
      (readSeq file offsets (pre ++ i :: post))[pre.length]? =
        some (read_line_at_offset file (offsets.getD i 0)) ∧
      readSeq file offsets [i, i] =
        [read_line_at_offset file (offsets.getD i 0),
          read_line_at_offset file (offsets.getD i 0)] := by
  intro file offsets pre post i _
  constructor
  · unfold readSeq
    rw [List.map_append]
    rw [List.getElem?_append_right (by simp)]
    simp
  · rfl

/-- Witness for C7 at a one-line file. -/
theorem readLine_idempotent_order_free_witness :
    (0 : Nat) < 1 ∧
      ((readSeq ('x' :: []) [0] ([] ++ 0 :: []))[(0 : Nat)]? =
        some (read_line_at_offset ('x' :: []) (([0] : List Nat).getD 0 0)) ∧
      readSeq ('x' :: []) [0] [0, 0] =
        [read_line_at_offset ('x' :: []) (([0] : List Nat).getD 0 0),
          read_line_at_offset ('x' :: []) (([0] : List Nat).getD 0 0)]) :=
  ⟨by decide, readLine_idempotent_order_free ('x' :: []) [0] [] [] 0 (by decide)⟩

theorem linesWithTerm_ne_nil : ∀ {cs : List Char}, cs ≠ [] → linesWithTerm cs ≠ [] := by
  intro cs h
  cases cs with
  | nil => exact absurd rfl h
  | cons c cs =>
    by_cases hc : c = '\n'
    · simp [linesWithTerm, hc]
    · simp only [linesWithTerm, hc, if_false, ite_false]
      cases linesWithTerm cs <;> simp

theorem linesWithTerm_flatten : ∀ file : List Char, (linesWithTerm file).flatten = file := by
  intro file
  induction file with
  | nil => rfl
  | cons c cs ih =>
    by_cases hc : c = '\n'
    · subst hc
      have h0 : linesWithTerm ('\n' :: cs) = ['\n'] :: linesWithTerm cs := rfl
      rw [h0, List.flatten_cons, ih]
      rfl
    · simp only [linesWithTerm, hc, if_false, ite_false]
      cases h2 : linesWithTerm cs with
      | nil =>
        have hcs : cs = [] := by
          by_contra hne
          exact linesWithTerm_ne_nil hne h2
        subst hcs
        simp
      | cons l ls =>
        rw [h2] at ih
        simp only [List.flatten_cons] at ih ⊢
        rw [List.cons_append, ih]

theorem logicalLines_eq_map : ∀ (n : Nat) (rem : List Char), rem.length ≤ n →
    logicalLines rem = (linesWithTerm rem).map rstripNl := by
  intro n
  induction n with
  | zero =>
    intro rem hn
    have : rem = [] := List.eq_nil_of_length_eq_zero (Nat.le_zero.mp hn)
    subst this
    rfl
  | succ n ih =>
    intro rem hn
    by_cases hrem : rem = []
    · subst hrem; rfl
    · rw [logicalLines_cons hrem, linesWithTerm_cons hrem, List.map_cons]
      have hlen : (splitLine rem).2.length ≤ n := by
        have := splitLine_snd_length hrem
        omega
      rw [ih (splitLine rem).2 hlen]

theorem offsetsAux_bytesRead : ∀ (n : Nat) (rem : List Char), rem.length ≤ n →
    ∀ (pos : Nat) (file : List Char), List.drop pos file = rem →
      ∀ i : Nat, ((offsetsAux rem pos)[i]?).map (bytesRead file) =
        ((linesWithTerm rem)[i]?).map List.length := by
  intro n
  induction n with
  | zero =>
    intro rem hn pos file hdrop i
    have : rem = [] := List.eq_nil_of_length_eq_zero (Nat.le_zero.mp hn)
    subst this
    rfl
  | succ n ih =>
    intro rem hn pos file hdrop i
    by_cases hrem : rem = []
    · subst hrem; rfl
    · rw [offsetsAux_cons hrem pos, linesWithTerm_cons hrem]
      cases i with
      | zero =>
        simp only [List.getElem?_cons_zero, Option.map_some]
        show some (readlineAux (List.drop pos file)).length = _
        rw [hdrop, readlineAux_eq]
        rfl
      | succ i =>
        simp only [List.getElem?_cons_succ]
        have hlen : (splitLine rem).2.length ≤ n := by
          have := splitLine_snd_length hrem
          omega
        have hdrop2 : List.drop (pos + (splitLine rem).1.length) file = (splitLine rem).2 := by
          have h2 := List.drop_left (splitLine rem).1 (splitLine rem).2
          rw [splitLine_append rem] at h2
          rw [← h2, ← hdrop, List.drop_drop]
        exact ih (splitLine rem).2 hlen _ file hdrop2 i

theorem mem_linesWithTerm_structure : ∀ (n : Nat) (rem : List Char), rem.length ≤ n →
    ∀ lw ∈ linesWithTerm rem, ('\n' ∉ lw) ∨ ∃ l, lw = l ++ ['\n'] ∧ '\n' ∉ l := by
  intro n
  induction n with
  | zero =>
    intro rem hn lw hlw
    have : rem = [] := List.eq_nil_of_length_eq_zero (Nat.le_zero.mp hn)
    subst this
    simp [linesWithTerm] at hlw
  | succ n ih =>
    intro rem hn lw hlw
    by_cases hrem : rem = []
    · subst hrem; simp [linesWithTerm] at hlw
    · rw [linesWithTerm_cons hrem] at hlw
      rcases List.mem_cons.mp hlw with h | h
      · subst h
        rcases splitLine_fst_structure rem with ⟨h1, _⟩ | ⟨l, h1, h2⟩
        · exact Or.inl h1
        · exact Or.inr ⟨l, h1, h2⟩
      · have hlen : (splitLine rem).2.length ≤ n := by
          have := splitLine_snd_length hrem
          omega
        exact ih (splitLine rem).2 hlen lw h

/-- Claim C9: cost model of the design.  The single indexing pass reads
each byte of the file exactly once (the successive `readline` results
concatenate back to the file); retrieving the line at table entry `i`
reads exactly the bytes of that stored line — at most the returned line
length plus one terminator byte — after one seek, independently of the
file size and of any other reads (the reader is a pure function). -/
theorem read_cost_and_single_pass :
    ∀ file : List Char,
      (linesWithTerm file).flatten = file ∧
      (∀ i : Nat, ((create_offset_index file)[i]?).map (bytesRead file) =
        ((linesWithTerm file)[i]?).map List.length) ∧
      (∀ (i : Nat) (lw : List Char), (linesWithTerm file)[i]? = some lw →
        (logicalLines file)[i]? = some (rstripNl lw) ∧
          lw.length ≤ (rstripNl lw).length + 1) := by
  intro file
  refine ⟨linesWithTerm_flatten file, ?_, ?_⟩
  · intro i
    exact offsetsAux_bytesRead file.length file (le_refl _) 0 file (List.drop_zero file) i
  · intro i lw hlw
    constructor
    · rw [logicalLines_eq_map file.length file (le_refl _),
        List.getElem?_map rstripNl (linesWithTerm file) i, hlw]
      rfl
    · have hmem : lw ∈ linesWithTerm file := List.getElem?_mem hlw
      rcases mem_linesWithTerm_structure file.length file (le_refl _) lw hmem with h | ⟨l, h1, h2⟩
      · rw [rstripNl_no_nl h]
        omega
      · subst h1
        rw [rstripNl_append_nl l, rstripNl_no_nl h2]
        simp

/-- Witness for C9 at the concrete file `"a\n"`. -/
theorem read_cost_and_single_pass_witness :
    (linesWithTerm ('a' :: '\n' :: [])).flatten = ('a' :: '\n' :: []) ∧
      ((logicalLines ('a' :: '\n' :: []))[0]? = some (rstripNl ('a' :: '\n' :: [])) ∧
        ('a' :: '\n' :: []).length ≤ (rstripNl ('a' :: '\n' :: [])).length + 1) := by
  have h := read_cost_and_single_pass ('a' :: '\n' :: [])
  exact ⟨h.1, h.2.2 0 ('a' :: '\n' :: []) (by decide)⟩

/-!
Supporting lemmas: decimal rendering round-trips through the digit
classifier and value extractor the session loop uses.
-/

theorem digitChar48_toNat : ∀ {d : Nat}, d < 10 → (digitChar48 d).toNat = 48 + d := by
  intro d h
  unfold digitChar48
  interval_cases d <;> decide

theorem natReprAux_digits : ∀ fuel n : Nat, n < fuel →
    natReprAux fuel n ≠ [] ∧ ∀ c ∈ natReprAux fuel n, isDigit09 c = true := by
  intro fuel
  induction fuel with
  | zero => intro n h; omega
  | succ fuel ih =>
    intro n h
    by_cases h10 : n < 10
    · refine ⟨by simp [natReprAux, h10], ?_⟩
      intro c hc
      simp only [natReprAux, if_pos h10, List.mem_singleton] at hc
      subst hc
      simp only [isDigit09, digitChar48_toNat h10]
      simp
      omega
    · have hdiv : n / 10 < fuel := by
        have h1 : n / 10 < n := Nat.div_lt_self (by omega) (by omega)
        omega
      obtain ⟨ihne, ihdig⟩ := ih (n / 10) hdiv
      constructor
      · simp [natReprAux, h10]
      · intro c hc
        simp only [natReprAux, h10, if_false, ite_false, List.mem_append,
          List.mem_singleton] at hc
        rcases hc with hc | hc
        · exact ihdig c hc
        · subst hc
          have hm : n % 10 < 10 := Nat.mod_lt n (by omega)
          simp only [isDigit09, digitChar48_toNat hm]
          simp
          omega

theorem digitsVal_append_digit (a : List Char) (c : Char) :
    digitsVal (a ++ [c]) = digitsVal a * 10 + (c.toNat - 48) := by
  unfold digitsVal
  rw [List.foldl_append]
  rfl

theorem digitsVal_natReprAux : ∀ fuel n : Nat, n < fuel →
    digitsVal (natReprAux fuel n) = n := by
  intro fuel
  induction fuel with
  | zero => intro n h; omega
  | succ fuel ih =>
    intro n h
    by_cases h10 : n < 10
    · simp only [natReprAux, if_pos h10]
      show digitsVal ([] ++ [digitChar48 n]) = n
      rw [digitsVal_append_digit, digitChar48_toNat h10]
      show 0 * 10 + (48 + n - 48) = n
      omega
    · have hdiv : n / 10 < fuel := by
        have h1 : n / 10 < n := Nat.div_lt_self (by omega) (by omega)
        omega
      have hm : n % 10 < 10 := Nat.mod_lt n (by omega)
      simp only [natReprAux, h10, if_false, ite_false]
      rw [digitsVal_append_digit, ih (n / 10) hdiv, digitChar48_toNat hm]
      omega

theorem natRepr_ne_nil (n : Nat) : natRepr n ≠ [] :=
  (natReprAux_digits (n + 1) n (by omega)).1

theorem natRepr_all_digits (n : Nat) : ∀ c ∈ natRepr n, isDigit09 c = true :=
  (natReprAux_digits (n + 1) n (by omega)).2

theorem digitsVal_natRepr (n : Nat) : digitsVal (natRepr n) = n :=
  digitsVal_natReprAux (n + 1) n (by omega)

theorem isDigit09_not_pyWs : ∀ {c : Char}, isDigit09 c = true → isPyWs c = false := by
  intro c h
  simp only [isDigit09, Bool.and_eq_true, decide_eq_true_eq] at h
  simp only [isPyWs, Bool.or_eq_false_iff, decide_eq_false_iff_not]
  omega

theorem toLower_of_digit : ∀ {c : Char}, isDigit09 c = true → Char.toLower c = c := by
  intro c h
  simp only [isDigit09, Bool.and_eq_true, decide_eq_true_eq] at h
  unfold Char.toLower
  rw [if_neg (by omega)]

theorem dropWhile_eq_self_of (p : Char → Bool) :
    ∀ {l : List Char}, (∀ c ∈ l, p c = false) → l.dropWhile p = l := by
  intro l h
  cases l with
  | nil => rfl
  | cons c cs =>
    rw [List.dropWhile_cons, h c (List.mem_cons_self c cs)]
    simp

theorem map_id_of (f : Char → Char) :
    ∀ {l : List Char}, (∀ c ∈ l, f c = c) → l.map f = l := by
  intro l
  induction l with
  | nil => intro _; rfl
  | cons c cs ih =>
    intro h
    rw [List.map_cons, h c (List.mem_cons_self c cs),
      ih fun d hd => h d (List.mem_cons_of_mem c hd)]

theorem pyStrip_all_nonws : ∀ {l : List Char}, (∀ c ∈ l, isPyWs c = false) →
    pyStrip l = l := by
  intro l h
  unfold pyStrip
  rw [dropWhile_eq_self_of isPyWs h]
  rw [dropWhile_eq_self_of isPyWs (fun c hc => h c (List.mem_reverse.mp hc))]
  exact List.reverse_reverse l

theorem parseCommand_natRepr (n : Nat) : parseCommand (natRepr n) = .cindex n := by
  have hdig := natRepr_all_digits n
  unfold parseCommand
  have hstrip : pyStrip (natRepr n) = natRepr n :=
    pyStrip_all_nonws fun c hc => isDigit09_not_pyWs (hdig c hc)
  have hlow : pyLower (natRepr n) = natRepr n :=
    map_id_of Char.toLower fun c hc => toLower_of_digit (hdig c hc)
  rw [hstrip, hlow]
  rw [if_neg, if_neg, if_pos]
  · rw [digitsVal_natRepr]
  · simp only [pyIsDigit, Bool.and_eq_true, Bool.not_eq_true', List.isEmpty_eq_false]
    exact ⟨natRepr_ne_nil n, List.all_eq_true.mpr hdig⟩
  · intro hq
    have : isDigit09 'r' = true := hdig 'r' (by rw [hq]; simp)
    exact absurd this (by decide)
  · intro hq
    have : isDigit09 'q' = true := hdig 'q' (by rw [hq]; simp)
    exact absurd this (by decide)

/-!
Supporting lemmas: the branch behaviour of one session-loop iteration.
-/

theorem sessionStep_of_crandom :
    ∀ {file : List Char} {offsets : List Nat} {input : List Char} {draw : Nat},
      parseCommand input = .crandom → (h : offsets.length ≠ 0) →
      sessionStep file offsets input draw =
        displayLine file offsets (draw % offsets.length)
          (Nat.mod_lt draw (Nat.pos_of_ne_zero h)) := by
  intro file offsets input draw hcmd h
  unfold sessionStep
  rw [hcmd]
  exact dif_neg h

theorem sessionStep_of_crandom_empty :
    ∀ {file : List Char} {offsets : List Nat} {input : List Char} {draw : Nat},
      parseCommand input = .crandom → offsets.length = 0 →
      sessionStep file offsets input draw = .emptyRandom := by
  intro file offsets input draw hcmd h
  unfold sessionStep
  rw [hcmd]
  exact dif_pos h

theorem sessionStep_of_cindex_lt :
    ∀ {file : List Char} {offsets : List Nat} {input : List Char} {draw n : Nat},
      parseCommand input = .cindex n → (h : n < offsets.length) →
      sessionStep file offsets input draw = displayLine file offsets n h := by
  intro file offsets input draw n hcmd h
  unfold sessionStep
  rw [hcmd]
  exact dif_pos h

theorem sessionStep_of_cindex_ge :
    ∀ {file : List Char} {offsets : List Nat} {input : List Char} {draw n : Nat},
      parseCommand input = .cindex n → offsets.length ≤ n →
      sessionStep file offsets input draw = .outOfRange := by
  intro file offsets input draw n hcmd h
  unfold sessionStep
  rw [hcmd]
  exact dif_neg (by omega)

theorem sessionStep_of_cinvalid :
    ∀ {file : List Char} {offsets : List Nat} {input : List Char} {draw : Nat},
      parseCommand input = .cinvalid →
      sessionStep file offsets input draw = .invalidCmd := by
  intro file offsets input draw hcmd
  unfold sessionStep
  rw [hcmd]

theorem sessionStep_of_cquit :
    ∀ {file : List Char} {offsets : List Nat} {input : List Char} {draw : Nat},
      parseCommand input = .cquit →
      sessionStep file offsets input draw = .exit := by
  intro file offsets input draw hcmd
  unfold sessionStep
  rw [hcmd]

theorem displayLine_cases :
    ∀ (file : List Char) (offsets : List Nat) (idx : Nat) (h : idx < offsets.length),
      (∃ v, jsonLoads (read_line_at_offset file (offsets.get ⟨idx, h⟩)) = some v ∧
        displayLine file offsets idx h =
          .showLine idx (read_line_at_offset file (offsets.get ⟨idx, h⟩))
            (indent_json_2levels v 0 2)) ∨
      (jsonLoads (read_line_at_offset file (offsets.get ⟨idx, h⟩)) = none ∧
        displayLine file offsets idx h =
          .crash idx (read_line_at_offset file (offsets.get ⟨idx, h⟩))) := by
  intro file offsets idx h
  unfold displayLine
  cases hj : jsonLoads (read_line_at_offset file (offsets.get ⟨idx, h⟩)) with
  | some v => exact Or.inl ⟨v, rfl, by simp only [hj]⟩
  | none => exact Or.inr ⟨rfl, by simp only [hj]⟩

theorem parseCommand_neg_input : ∀ s : List Char, parseCommand ('-' :: s) = .cinvalid := by
  intro s
  have hstrip : ∃ t : List Char, pyStrip ('-' :: s) = '-' :: t := by
    unfold pyStrip
    rw [List.dropWhile_cons, if_neg (by decide)]
    rw [List.reverse_cons, List.dropWhile_append]
    by_cases hemp : (s.reverse.dropWhile isPyWs).isEmpty = true
    · rw [if_pos hemp]
      exact ⟨[], by decide⟩
    · rw [if_neg hemp]
      exact ⟨(s.reverse.dropWhile isPyWs).reverse, by rw [List.reverse_append]; rfl⟩
  obtain ⟨t, ht⟩ := hstrip
  unfold parseCommand
  rw [ht]
  have hlow : pyLower ('-' :: t) = '-' :: pyLower t := by
    unfold pyLower
    rw [List.map_cons]
    rfl
  rw [hlow]
  rw [if_neg (by simp), if_neg (by simp), if_neg]
  simp only [pyIsDigit, Bool.and_eq_true, Bool.not_eq_true']
  intro hcon
  have := List.all_eq_true.mp hcon.2 '-' (List.mem_cons_self _ _)
  exact absurd this (by decide)

/-- Claim C4 counterexample: a negative index request (`"-1"`) on a
nonempty table is rejected as a malformed command, not with the
out-of-range error the claim requires. -/
theorem negative_index_counterexample :
    sessionStep ('x' :: []) [0] ('-' :: '1' :: []) 0 = .invalidCmd ∧
      Outcome.invalidCmd ≠ Outcome.outOfRange := by
  exact ⟨by decide, by decide⟩

/-- Claim C4 (amended): a requested index `n ≥ totalLines` fails with
the out-of-range error, performs no seek or read, and leaves the
session able to continue; an input starting with a minus sign can never
parse as an index — it is rejected as a malformed command, likewise
without any I/O, and the session continues. -/
theorem out_of_range_rejected_without_read :
    ∀ (file : List Char) (offsets : List Nat) (input : List Char) (draw n : Nat),
      (parseCommand input = .cindex n → offsets.length ≤ n →
        sessionStep file offsets input draw = .outOfRange ∧
        readCount (sessionStep file offsets input draw) = 0 ∧
        continues (sessionStep file offsets input draw) = true) ∧
      (∀ s : List Char, sessionStep file offsets ('-' :: s) draw = .invalidCmd ∧
        readCount (sessionStep file offsets ('-' :: s) draw) = 0 ∧
        continues (sessionStep file offsets ('-' :: s) draw) = true) := by
  intro file offsets input draw n
  constructor
  · intro hcmd hge
    rw [sessionStep_of_cindex_ge hcmd hge]
    exact ⟨rfl, rfl, rfl⟩
  · intro s
    rw [sessionStep_of_cinvalid (parseCommand_neg_input s)]
    exact ⟨rfl, rfl, rfl⟩

/-- Witness for the amended C4 at a two-line table and the request
`"5"`. -/
theorem out_of_range_rejected_without_read_witness :
    sessionStep [] [0, 1] ('5' :: []) 0 = .outOfRange ∧
      readCount (sessionStep [] [0, 1] ('5' :: []) 0) = 0 ∧
      continues (sessionStep [] [0, 1] ('5' :: []) 0) = true :=
  (out_of_range_rejected_without_read [] [0, 1] ('5' :: []) 0 5).1 (by decide) (by decide)

/-- Claim C5 counterexample: on the file `"oops\n"` (whose single line
is not valid JSON) the session's own display path raises an uncaught
`json.loads` error at the request `"0"`, terminating the process — so a
malformed payload on a retrieved line *is* a failure of the session,
and an I/O failure is not the only way the process terminates. -/
theorem malformed_payload_crashes_session :
    browse_jsonl_step ('o' :: 'o' :: 'p' :: 's' :: '\n' :: []) ('0' :: []) 0 =
      .crash 0 ('o' :: 'o' :: 'p' :: 's' :: []) ∧
      continues (.crash 0 ('o' :: 'o' :: 'p' :: 's' :: [])) = false ∧
      jsonLoads ('o' :: 'o' :: 'p' :: 's' :: []) = none := by
  refine ⟨by decide, by decide, rfl⟩

/-- Claim C5 (amended): every malformed command and every out-of-range
index yields a visible, distinguishable, non-fatal error message after
which the session continues; the Reader itself never fails on a
payload; but the session terminates not only on quit — a retrieved line
whose text is not valid JSON raises an uncaught parse error in the
display path. -/
theorem session_error_handling :
    ∀ (file : List Char) (offsets : List Nat) (input : List Char) (draw : Nat),
      (sessionStep file offsets input draw = .invalidCmd ∨
        sessionStep file offsets input draw = .outOfRange →
        continues (sessionStep file offsets input draw) = true) ∧
      outcomeMessage offsets.length .outOfRange ≠
        outcomeMessage offsets.length .invalidCmd ∧
      (continues (sessionStep file offsets input draw) = false →
        sessionStep file offsets input draw = .exit ∨
        ∃ (i : Nat) (raw : List Char),
          sessionStep file offsets input draw = .crash i raw ∧ jsonLoads raw = none) := by
  intro file offsets input draw
  refine ⟨?_, ?_, ?_⟩
  · intro h
    rcases h with h | h <;> rw [h] <;> rfl
  · intro hmsg
    have h1 : (outcomeMessage offsets.length .outOfRange)[8]? = some 'i' := by
      have he : outcomeMessage offsets.length .outOfRange =
          ('I' :: 'n' :: 'v' :: 'a' :: 'l' :: 'i' :: 'd' :: ' ' :: 'i' :: 'n' :: 'd' ::
            'e' :: 'x' :: '.' :: ' ' :: 'M' :: 'u' :: 's' :: 't' :: ' ' :: 'b' :: 'e' ::
            ' ' :: 'i' :: 'n' :: ' ' :: '[' :: '0' :: '.' :: '.' :: []) ++
            natRepr (offsets.length - 1) ++ [']', '.'] := rfl
      rw [he, List.append_assoc, List.getElem?_append, if_pos (by decide)]
      decide
    have h2 : (outcomeMessage offsets.length .invalidCmd)[8]? = some 'c' := rfl
    rw [hmsg, h2] at h1
    exact absurd (Option.some.inj h1) (by decide)
  · intro hstop
    cases hcmd : parseCommand input with
    | cquit => exact Or.inl (sessionStep_of_cquit hcmd)
    | crandom =>
      by_cases hlen : offsets.length = 0
      · rw [sessionStep_of_crandom_empty hcmd hlen] at hstop
        exact absurd hstop (by decide)
      · rw [sessionStep_of_crandom hcmd hlen] at hstop ⊢
        rcases displayLine_cases file offsets (draw % offsets.length)
            (Nat.mod_lt draw (Nat.pos_of_ne_zero hlen)) with ⟨v, _, hd⟩ | ⟨hj, hd⟩
        · rw [hd] at hstop
          simp [continues] at hstop
        · exact Or.inr ⟨_, _, hd, hj⟩
    | cindex n =>
      by_cases hlt : n < offsets.length
      · rw [sessionStep_of_cindex_lt hcmd hlt] at hstop ⊢
        rcases displayLine_cases file offsets n hlt with ⟨v, _, hd⟩ | ⟨hj, hd⟩
        · rw [hd] at hstop
          simp [continues] at hstop
        · exact Or.inr ⟨_, _, hd, hj⟩
      · rw [sessionStep_of_cindex_ge hcmd (by omega)] at hstop
        exact absurd hstop (by decide)
    | cinvalid =>
      rw [sessionStep_of_cinvalid hcmd] at hstop
      exact absurd hstop (by decide)

/-- Witness for the amended C5: a malformed command continues the
session, and the two error messages are distinguishable. -/
theorem session_error_handling_witness :
    continues (sessionStep [] [] ('x' :: []) 0) = true ∧
      outcomeMessage (List.length ([] : List Nat)) .outOfRange ≠
        outcomeMessage (List.length ([] : List Nat)) .invalidCmd :=
  ⟨(session_error_handling [] [] ('x' :: []) 0).1 (Or.inl (by decide)),
    (session_error_handling [] [] ('x' :: []) 0).2.1⟩

/-- Claim C6: random selection is a pure policy on top of the reader —
with a nonempty table the drawn index is reduced into `[0, totalLines)`
and the request behaves exactly like the integer request for that
index (delegation to `ReadLine`); every in-range index is reached by
some draw (its own value); with an empty table the random request is
rejected with a message and performs no read. -/
theorem random_selection_delegates :
    ∀ (file : List Char) (offsets : List Nat) (draw : Nat),
      (offsets.length ≠ 0 →
        sessionStep file offsets ('r' :: 'a' :: 'n' :: 'd' :: 'o' :: 'm' :: []) draw =
          sessionStep file offsets (natRepr (draw % offsets.length)) 0) ∧
      (∀ i : Nat, i < offsets.length →
        sessionStep file offsets ('r' :: 'a' :: 'n' :: 'd' :: 'o' :: 'm' :: []) i =
          sessionStep file offsets (natRepr i) 0) ∧
      (offsets.length = 0 →
        sessionStep file offsets ('r' :: 'a' :: 'n' :: 'd' :: 'o' :: 'm' :: []) draw =
          .emptyRandom ∧
        readCount
          (sessionStep file offsets ('r' :: 'a' :: 'n' :: 'd' :: 'o' :: 'm' :: []) draw) =
          0) := by
  intro file offsets draw
  have hrand : parseCommand ('r' :: 'a' :: 'n' :: 'd' :: 'o' :: 'm' :: []) = .crandom := by
    decide
  have hdeleg : ∀ d : Nat, offsets.length ≠ 0 →
      sessionStep file offsets ('r' :: 'a' :: 'n' :: 'd' :: 'o' :: 'm' :: []) d =
        sessionStep file offsets (natRepr (d % offsets.length)) 0 := by
    intro d hlen
    rw [sessionStep_of_crandom hrand hlen]
    rw [sessionStep_of_cindex_lt (parseCommand_natRepr (d % offsets.length))
      (Nat.mod_lt d (Nat.pos_of_ne_zero hlen))]
  refine ⟨hdeleg draw, ?_, ?_⟩
  · intro i hi
    rw [hdeleg i (by omega), Nat.mod_eq_of_lt hi]
  · intro hlen
    rw [sessionStep_of_crandom_empty hrand hlen]
    exact ⟨rfl, rfl⟩

/-- Witness for C6 on a one-line table with draw 3. -/
theorem random_selection_delegates_witness :
    sessionStep [] [0] ('r' :: 'a' :: 'n' :: 'd' :: 'o' :: 'm' :: []) 3 =
      sessionStep [] [0] (natRepr (3 % List.length [(0 : Nat)])) 0 :=
  (random_selection_delegates [] [0] 3).1 (by decide)

/-!
Supporting lemmas: induction over JSON values, unfolding the
serialisers, and newline-freedom of the compact serialisation.
-/

theorem JValue.inductionOn (P : JValue → Prop)
    (hnull : P .null) (hbool : ∀ b, P (.bool b)) (hnum : ∀ n, P (.num n))
    (hstr : ∀ s, P (.str s))
    (harr : ∀ es, (∀ e ∈ es, P e) → P (.arr es))
    (hobj : ∀ ms, (∀ m ∈ ms, P m.2) → P (.obj ms)) : ∀ v, P v := by
  have key : ∀ (n : Nat) (v : JValue), sizeOf v ≤ n → P v := by
    intro n
    induction n with
    | zero =>
      intro v hv
      cases v <;> simp at hv
    | succ n ih =>
      intro v hv
      cases v with
      | null => exact hnull
      | bool b => exact hbool b
      | num m => exact hnum m
      | str s => exact hstr s
      | arr es =>
        refine harr es ?_
        intro e he
        have h1 := List.sizeOf_lt_of_mem he
        have h2 : sizeOf (JValue.arr es) = 1 + sizeOf es := by simp
        exact ih e (by omega)
      | obj ms =>
        refine hobj ms ?_
        intro m hm
        have h1 := List.sizeOf_lt_of_mem hm
        have h2 : sizeOf m.2 < sizeOf m := by
          obtain ⟨k, w⟩ := m
          simp only [Prod.mk.sizeOf_spec]
          omega
        have h3 : sizeOf (JValue.obj ms) = 1 + sizeOf ms := by simp
        exact ih m.2 (by omega)
  intro v
  exact key (sizeOf v) v (le_refl _)

theorem dumps_arr (es : List JValue) :
    dumps (.arr es) = '[' :: commaJoin (es.map dumps) ++ [']'] := by
  rw [dumps]
  rw [List.attach_map_val es dumps]

theorem dumps_obj (ms : List (List Char × JValue)) :
    dumps (.obj ms) =
      lbrace :: commaJoin (ms.map fun m => escapeString m.1 ++ ':' :: dumps m.2) ++
        [rbrace] := by
  rw [dumps]
  rw [List.attach_map_val ms fun m => escapeString m.1 ++ ':' :: dumps m.2]

theorem indent_of_cutoff : ∀ {v : JValue} {current maxLevel : Nat}, maxLevel ≤ current →
    indent_json_2levels v current maxLevel = dumps v := by
  intro v current maxLevel h
  cases v <;> simp only [indent_json_2levels] <;> rw [if_pos h]

theorem indent_scalar : ∀ {v : JValue}, (∀ es, v ≠ .arr es) → (∀ ms, v ≠ .obj ms) →
    ∀ current maxLevel : Nat, indent_json_2levels v current maxLevel = dumps v := by
  intro v harr hobj current maxLevel
  cases v with
  | arr es => exact absurd rfl (harr es)
  | obj ms => exact absurd rfl (hobj ms)
  | null => simp only [indent_json_2levels]; split <;> rfl
  | bool b => simp only [indent_json_2levels]; split <;> rfl
  | num n => simp only [indent_json_2levels]; split <;> rfl
  | str s => simp only [indent_json_2levels]; split <;> rfl

theorem indent_obj : ∀ {current maxLevel : Nat}, current < maxLevel →
    ∀ ms : List (List Char × JValue),
      indent_json_2levels (.obj ms) current maxLevel =
        joinNl
          ([lbrace] ::
            withCommas
              (ms.map fun m =>
                indentSp (current + 1) ++ '"' :: m.1 ++ '"' :: ':' :: ' ' ::
                  indent_json_2levels m.2 (current + 1) maxLevel) ++
            [indentSp current ++ [rbrace]]) := by
  intro current maxLevel h ms
  rw [indent_json_2levels, if_neg (by omega)]
  rw [List.attach_map_val ms fun m =>
    indentSp (current + 1) ++ '"' :: m.1 ++ '"' :: ':' :: ' ' ::
      indent_json_2levels m.2 (current + 1) maxLevel]

theorem indent_arr : ∀ {current maxLevel : Nat}, current < maxLevel →
    ∀ es : List JValue,
      indent_json_2levels (.arr es) current maxLevel =
        joinNl
          (['['] ::
            withCommas
              (es.map fun e =>
                indentSp (current + 1) ++
                  indent_json_2levels e (current + 1) maxLevel) ++
            [indentSp current ++ [']']]) := by
  intro current maxLevel h es
  rw [indent_json_2levels, if_neg (by omega)]
  rw [List.attach_map_val es fun e =>
    indentSp (current + 1) ++ indent_json_2levels e (current + 1) maxLevel]

theorem intercalate_two (sep x y : List Char) (zs : List (List Char)) :
    List.intercalate sep (x :: y :: zs) = x ++ sep ++ List.intercalate sep (y :: zs) := by
  simp [List.intercalate, List.intersperse]

theorem joinNl_cons (x : List Char) (rest : List (List Char)) (h : rest ≠ []) :
    joinNl (x :: rest) = x ++ '\n' :: joinNl rest := by
  cases rest with
  | nil => exact absurd rfl h
  | cons y zs =>
    unfold joinNl
    rw [intercalate_two]
    simp

theorem joinNl_withCommas (ls : List (List Char)) (lastLine : List Char) (h : ls ≠ []) :
    joinNl (withCommas ls ++ [lastLine]) =
      List.intercalate (',' :: '\n' :: []) ls ++ '\n' :: lastLine := by
  induction ls with
  | nil => exact absurd rfl h
  | cons x xs ih =>
    cases xs with
    | nil =>
      have h1 : withCommas [x] = [x] := rfl
      have h2 : List.intercalate (',' :: '\n' :: []) [x] = x := by
        simp [List.intercalate]
      rw [h1, h2, List.singleton_append, joinNl_cons x [lastLine] (by simp)]
      rw [show joinNl [lastLine] = lastLine by simp [joinNl, List.intercalate]]
    | cons y zs =>
      have hxs : withCommas (x :: y :: zs) = (x ++ [',']) :: withCommas (y :: zs) := rfl
      rw [hxs, List.cons_append,
        joinNl_cons (x ++ [',']) (withCommas (y :: zs) ++ [lastLine]) (by
          cases h2 : withCommas (y :: zs) <;> simp [h2]),
        ih (by simp), intercalate_two]
      simp

theorem nl_not_mem_natRepr (n : Nat) : '\n' ∉ natRepr n := fun h =>
  absurd (natRepr_all_digits n '\n' h) (by decide)

theorem nl_not_mem_intRepr (n : Int) : '\n' ∉ intRepr n := by
  unfold intRepr
  split_ifs with h
  · intro hmem
    rcases List.mem_cons.mp hmem with h1 | h1
    · exact absurd h1 (by decide)
    · exact nl_not_mem_natRepr _ h1
  · exact nl_not_mem_natRepr _

theorem hexLowerChar_toNat : ∀ {m : Nat}, m < 16 →
    (hexLowerChar m).toNat = if m < 10 then 48 + m else 87 + m := by
  intro m h
  unfold hexLowerChar digitChar48
  interval_cases m <;> decide

theorem nl_not_mem_escapeChar (c : Char) : '\n' ∉ escapeChar c := by
  unfold escapeChar
  split_ifs with h1 h2 h3 h4 h5 h6 h7 h8
  · decide
  · decide
  · decide
  · decide
  · decide
  · decide
  · decide
  · intro hmem
    have hdiv : c.toNat / 16 < 16 := by omega
    have hmod : c.toNat % 16 < 16 := by omega
    have hd := hexLowerChar_toNat hdiv
    have hm := hexLowerChar_toNat hmod
    simp only [List.mem_cons, List.not_mem_nil, or_false] at hmem
    have h10 : ('\n').toNat = 10 := rfl
    rcases hmem with h | h | h | h | h | h
    · exact absurd h (by decide)
    · exact absurd h (by decide)
    · exact absurd h (by decide)
    · exact absurd h (by decide)
    · have := congrArg Char.toNat h
      simp only at this
      rw [hd, h10] at this
      split_ifs at this <;> omega
    · have := congrArg Char.toNat h
      simp only at this
      rw [hm, h10] at this
      split_ifs at this <;> omega
  · intro hmem
    rw [List.mem_singleton] at hmem
    have := congrArg Char.toNat hmem
    have h10 : ('\n').toNat = 10 := rfl
    rw [h10] at this
    omega

theorem nl_not_mem_escapeString (s : List Char) : '\n' ∉ escapeString s := by
  unfold escapeString
  intro hmem
  rcases List.mem_cons.mp hmem with h | h
  · exact absurd h (by decide)
  · rcases List.mem_append.mp h with h | h
    · obtain ⟨piece, hp, hmem2⟩ := List.mem_flatten.mp h
      obtain ⟨c, _, hc⟩ := List.mem_map.mp hp
      exact nl_not_mem_escapeChar c (hc ▸ hmem2)
    · exact absurd h (by decide)

theorem not_mem_intercalate (c : Char) (sep : List Char) :
    ∀ ls : List (List Char), c ∉ sep → (∀ l ∈ ls, c ∉ l) →
      c ∉ List.intercalate sep ls := by
  intro ls
  induction ls with
  | nil => intro _ _ h; simp [List.intercalate] at h
  | cons x xs ih =>
    intro hsep hls hmem
    cases xs with
    | nil =>
      rw [show List.intercalate sep [x] = x by simp [List.intercalate]] at hmem
      exact hls x (by simp) hmem
    | cons y zs =>
      rw [intercalate_two] at hmem
      rcases List.mem_append.mp hmem with h | h
      · rcases List.mem_append.mp h with h | h
        · exact hls x (by simp) h
        · exact hsep h
      · exact ih hsep (fun l hl => hls l (List.mem_cons_of_mem x hl)) h

theorem nl_not_mem_dumps : ∀ v : JValue, '\n' ∉ dumps v := by
  intro v
  induction v using JValue.inductionOn with
  | hnull => rw [dumps]; decide
  | hbool b => cases b <;> (rw [dumps]; decide)
  | hnum n => rw [dumps]; exact nl_not_mem_intRepr n
  | hstr s => rw [dumps]; exact nl_not_mem_escapeString s
  | harr es ih =>
    rw [dumps_arr]
    intro hmem
    rcases List.mem_cons.mp hmem with h | h
    · exact absurd h (by decide)
    · rcases List.mem_append.mp h with h | h
      · refine not_mem_intercalate '\n' [','] (es.map dumps) (by decide) ?_ h
        intro l hl
        obtain ⟨e, he, hle⟩ := List.mem_map.mp hl
        exact hle ▸ ih e he
      · exact absurd h (by decide)
  | hobj ms ih =>
    rw [dumps_obj]
    intro hmem
    rcases List.mem_cons.mp hmem with h | h
    · exact absurd h (by decide)
    · rcases List.mem_append.mp h with h | h
      · refine not_mem_intercalate '\n' [','] _ (by decide) ?_ h
        intro l hl
        obtain ⟨m, hm, hml⟩ := List.mem_map.mp hl
        subst hml
        intro hmem2
        rcases List.mem_append.mp hmem2 with h2 | h2
        · exact nl_not_mem_escapeString m.1 h2
        · rcases List.mem_cons.mp h2 with h3 | h3
          · exact absurd h3 (by decide)
          · exact ih m hm h3
      · exact absurd h (by decide)

/-- Claim C8: `indent_json_2levels` renders the first `max_level` levels
of nesting multi-line — the container brackets on their own lines and
each key or element starting its own line behind a two-space-per-level
indent — while everything at or beyond the cutoff level (and every
scalar) is serialised by the compact single-line `dumps`, whose output
contains no newline; and the formatting is presentation only: the
display path applies it on top of the raw text the reader returned,
leaving that text and the offset table untouched. -/
theorem indent_two_levels_rendering :
    ∀ (v : JValue) (current maxLevel : Nat),
      (maxLevel ≤ current → indent_json_2levels v current maxLevel = dumps v) ∧
      '\n' ∉ dumps v ∧
      (∀ ms : List (List Char × JValue), v = .obj ms → current < maxLevel → ms ≠ [] →
        indent_json_2levels v current maxLevel =
          lbrace :: '\n' ::
            (List.intercalate (',' :: '\n' :: [])
              (ms.map fun m => indentSp (current + 1) ++ '"' :: m.1 ++ '"' :: ':' :: ' ' ::
                indent_json_2levels m.2 (current + 1) maxLevel) ++
            '\n' :: (indentSp current ++ [rbrace]))) ∧
      (∀ es : List JValue, v = .arr es → current < maxLevel → es ≠ [] →
        indent_json_2levels v current maxLevel =
          '[' :: '\n' ::
            (List.intercalate (',' :: '\n' :: [])
              (es.map fun e => indentSp (current + 1) ++
                indent_json_2levels e (current + 1) maxLevel) ++
            '\n' :: (indentSp current ++ [']']))) ∧
      (∀ (file : List Char) (offsets : List Nat) (idx : Nat) (h : idx < offsets.length),
        jsonLoads (read_line_at_offset file (offsets.get ⟨idx, h⟩)) = some v →
        displayLine file offsets idx h =
          .showLine idx (read_line_at_offset file (offsets.get ⟨idx, h⟩))
            (indent_json_2levels v 0 2)) := by
  intro v current maxLevel
  refine ⟨fun h => indent_of_cutoff h, nl_not_mem_dumps v, ?_, ?_, ?_⟩
  · intro ms hv hlt hne
    subst hv
    rw [indent_obj hlt ms]
    rw [List.cons_append]
    rw [joinNl_cons [lbrace] _ (by
      cases h2 : withCommas (ms.map fun m => indentSp (current + 1) ++ '"' :: m.1 ++
        '"' :: ':' :: ' ' :: indent_json_2levels m.2 (current + 1) maxLevel) <;> simp [h2])]
    rw [joinNl_withCommas _ _ (by simpa using hne)]
    rfl
  · intro es hv hlt hne
    subst hv
    rw [indent_arr hlt es]
    rw [List.cons_append]
    rw [joinNl_cons ['['] _ (by
      cases h2 : withCommas (es.map fun e => indentSp (current + 1) ++
        indent_json_2levels e (current + 1) maxLevel) <;> simp [h2])]
    rw [joinNl_withCommas _ _ (by simpa using hne)]
    rfl
  · intro file offsets idx h hj
    unfold displayLine
    simp only [hj]

/-- Witness for C8: the dict equation at a one-member object at the top
level, and the compact cutoff at depth 2. -/
theorem indent_two_levels_rendering_witness :
    (indent_json_2levels (.obj [(['a'], .num 1)]) 0 2 =
      lbrace :: '\n' ::
        (List.intercalate (',' :: '\n' :: [])
          ([(['a'], JValue.num 1)].map fun m => indentSp 1 ++ '"' :: m.1 ++ '"' :: ':' ::
            ' ' :: indent_json_2levels m.2 1 2) ++
        '\n' :: (indentSp 0 ++ [rbrace]))) ∧
    indent_json_2levels (.num 5) 2 2 = dumps (.num 5) :=
  ⟨(indent_two_levels_rendering (.obj [(['a'], .num 1)]) 0 2).2.2.1
      [(['a'], .num 1)] rfl (by decide) (List.cons_ne_nil _ _),
    (indent_two_levels_rendering (.num 5) 2 2).1 (by decide)⟩

/-!
Supporting lemmas for the parser round trip: whitespace invariance.
-/

theorem skipWs_cons_nonws : ∀ {c : Char}, isWsChar c = false → ∀ s : List Char,
    skipWs (c :: s) = c :: s := by
  intro c h s
  unfold skipWs
  rw [List.dropWhile_cons, if_neg (by simp [h])]

theorem skipWs_ws_append : ∀ {w : List Char}, (∀ c ∈ w, isWsChar c = true) →
    ∀ s : List Char, skipWs (w ++ s) = skipWs s := by
  intro w
  induction w with
  | nil => intro _ s; rfl
  | cons c cs ih =>
    intro hw s
    show skipWs (c :: (cs ++ s)) = skipWs s
    unfold skipWs
    rw [List.dropWhile_cons, if_pos (by simp [hw c (List.mem_cons_self c cs)])]
    exact ih (fun d hd => hw d (List.mem_cons_of_mem c hd)) s

theorem skipWs_idem (s : List Char) : skipWs (skipWs s) = skipWs s := by
  unfold skipWs
  induction s with
  | nil => rfl
  | cons c cs ih =>
    rw [List.dropWhile_cons]
    by_cases h : isWsChar c = true
    · rw [if_pos h]
      exact ih
    · rw [if_neg h, List.dropWhile_cons, if_neg h]

theorem parseVal_skipWs (fuel : Nat) (s : List Char) :
    parseVal fuel (skipWs s) = parseVal fuel s := by
  cases fuel with
  | zero => rfl
  | succ f =>
    rw [parseVal, parseVal, skipWs_idem]

theorem parseVal_ws_leading : ∀ {w : List Char}, (∀ c ∈ w, isWsChar c = true) →
    ∀ (fuel : Nat) (s : List Char), parseVal fuel (w ++ s) = parseVal fuel s := by
  intro w hw fuel s
  cases fuel with
  | zero => rfl
  | succ f => rw [parseVal, parseVal, skipWs_ws_append hw]

theorem parseElems_skipWs (fuel : Nat) (s : List Char) :
    parseElems fuel (skipWs s) = parseElems fuel s := by
  cases fuel with
  | zero => rfl
  | succ f => rw [parseElems, parseElems, parseVal_skipWs]

theorem parseMembers_skipWs (fuel : Nat) (s : List Char) :
    parseMembers fuel (skipWs s) = parseMembers fuel s := by
  cases fuel with
  | zero => rfl
  | succ f => rw [parseMembers, parseMembers, skipWs_idem]

/-!
Supporting lemmas: string-literal and number round trips through the
parser.
-/

theorem hexDigitVal_hexLowerChar : ∀ {m : Nat}, m < 16 →
    hexDigitVal (hexLowerChar m) = some m := by
  intro m h
  unfold hexDigitVal hexLowerChar digitChar48
  interval_cases m <;> decide

theorem parseStrAux_quote (rest : List Char) : parseStrAux ('"' :: rest) = some ([], rest) := by
  rw [parseStrAux.eq_def]
  simp

theorem parseStrAux_cons_other : ∀ {c : Char}, c ≠ '"' → c ≠ '\\' → ¬ c.toNat < 32 →
    ∀ cs : List Char,
    parseStrAux (c :: cs) = (parseStrAux cs).map fun p => (c :: p.1, p.2) := by
  intro c h1 h2 h3 cs
  rw [parseStrAux.eq_def]
  simp [h1, h2, h3]

theorem parseStrAux_esc2 : ∀ (e d : Char), unescapeChar e = some d → e ≠ 'u' →
    ∀ cs : List Char,
    parseStrAux ('\\' :: e :: cs) = (parseStrAux cs).map fun p => (d :: p.1, p.2) := by
  intro e d hd he cs
  rw [parseStrAux.eq_def]
  simp only [reduceIte]
  rw [if_neg (show ¬('\\' = '"') from by decide)]
  split
  · rename_i cs2 heq
    simp at heq
  · rename_i h1 h2 h3 h4 cs2 heq
    rw [List.cons_eq_cons] at heq
    exact absurd heq.1 he
  · rename_i cs0 e2 cs2 hne heq
    rw [List.cons_eq_cons] at heq
    obtain ⟨he2, hcs2⟩ := heq
    subst he2
    subst hcs2
    rw [hd]

theorem parseStrAux_escU : ∀ (h1 h2 h3 h4 : Char) (a b c1 d : Nat),
    hexDigitVal h1 = some a → hexDigitVal h2 = some b → hexDigitVal h3 = some c1 →
    hexDigitVal h4 = some d → ∀ cs : List Char,
    parseStrAux ('\\' :: 'u' :: h1 :: h2 :: h3 :: h4 :: cs) =
      (parseStrAux cs).map fun p =>
        (Char.ofNat (((a * 16 + b) * 16 + c1) * 16 + d) :: p.1, p.2) := by
  intro h1 h2 h3 h4 a b c1 d ha hb hc hd4 cs
  rw [parseStrAux.eq_def]
  simp only [reduceIte]
  rw [if_neg (show ¬('\\' = '"') from by decide)]
  rw [ha, hb, hc, hd4]

theorem escapeChar_ctrl : ∀ {c : Char}, c ≠ '"' → c ≠ '\\' → c ≠ '\n' → c ≠ '\t' →
    c ≠ '\r' → c.toNat ≠ 8 → c.toNat ≠ 12 → c.toNat < 32 →
    escapeChar c = ['\\', 'u', '0', '0', hexLowerChar (c.toNat / 16),
      hexLowerChar (c.toNat % 16)] := by
  intro c h1 h2 h3 h4 h5 h6 h7 h8
  unfold escapeChar
  rw [if_neg h1, if_neg h2, if_neg h3, if_neg h4, if_neg h5, if_neg h6, if_neg h7, if_pos h8]

theorem escapeChar_plain : ∀ {c : Char}, c ≠ '"' → c ≠ '\\' → c ≠ '\n' → c ≠ '\t' →
    c ≠ '\r' → c.toNat ≠ 8 → c.toNat ≠ 12 → ¬ c.toNat < 32 → escapeChar c = [c] := by
  intro c h1 h2 h3 h4 h5 h6 h7 h8
  unfold escapeChar
  rw [if_neg h1, if_neg h2, if_neg h3, if_neg h4, if_neg h5, if_neg h6, if_neg h7, if_neg h8]

theorem parseStrAux_escaped : ∀ s rest : List Char,
    parseStrAux ((s.map escapeChar).flatten ++ '"' :: rest) = some (s, rest) := by
  intro s
  induction s with
  | nil => intro rest; exact parseStrAux_quote rest
  | cons c cs ih =>
    intro rest
    rw [List.map_cons, List.flatten_cons, List.append_assoc]
    by_cases h1 : c = '"'
    · subst h1
      rw [show escapeChar '"' = ['\\', '"'] from rfl]
      simp only [List.cons_append, List.nil_append]
      rw [parseStrAux_esc2 '"' '"' rfl (by decide), ih rest]
      rfl
    · by_cases h2 : c = '\\'
      · subst h2
        rw [show escapeChar '\\' = ['\\', '\\'] from rfl]
        simp only [List.cons_append, List.nil_append]
        rw [parseStrAux_esc2 '\\' '\\' rfl (by decide), ih rest]
        rfl
      · by_cases h3 : c = '\n'
        · subst h3
          rw [show escapeChar '\n' = ['\\', 'n'] from rfl]
          simp only [List.cons_append, List.nil_append]
          rw [parseStrAux_esc2 'n' '\n' rfl (by decide), ih rest]
          rfl
        · by_cases h4 : c = '\t'
          · subst h4
            rw [show escapeChar '\t' = ['\\', 't'] from rfl]
            simp only [List.cons_append, List.nil_append]
            rw [parseStrAux_esc2 't' '\t' rfl (by decide), ih rest]
            rfl
          · by_cases h5 : c = '\r'
            · subst h5
              rw [show escapeChar '\r' = ['\\', 'r'] from rfl]
              simp only [List.cons_append, List.nil_append]
              rw [parseStrAux_esc2 'r' '\r' rfl (by decide), ih rest]
              rfl
            · by_cases h6 : c.toNat = 8
              · have hc : c = Char.ofNat 8 := by rw [← Char.ofNat_toNat c, h6]
                subst hc
                rw [show escapeChar (Char.ofNat 8) = ['\\', 'b'] from rfl]
                simp only [List.cons_append, List.nil_append]
                rw [parseStrAux_esc2 'b' (Char.ofNat 8) (by decide) (by decide), ih rest]
                rfl
              · by_cases h7 : c.toNat = 12
                · have hc : c = Char.ofNat 12 := by rw [← Char.ofNat_toNat c, h7]
                  subst hc
                  rw [show escapeChar (Char.ofNat 12) = ['\\', 'f'] from rfl]
                  simp only [List.cons_append, List.nil_append]
                  rw [parseStrAux_esc2 'f' (Char.ofNat 12) (by decide) (by decide), ih rest]
                  rfl
                · by_cases h8 : c.toNat < 32
                  · rw [escapeChar_ctrl h1 h2 h3 h4 h5 h6 h7 h8]
                    simp only [List.cons_append, List.nil_append]
                    have hdiv : c.toNat / 16 < 16 := by omega
                    have hmod : c.toNat % 16 < 16 := by omega
                    rw [parseStrAux_escU '0' '0' (hexLowerChar (c.toNat / 16))
                      (hexLowerChar (c.toNat % 16)) 0 0 (c.toNat / 16) (c.toNat % 16)
                      (by decide) (by decide) (hexDigitVal_hexLowerChar hdiv)
                      (hexDigitVal_hexLowerChar hmod), ih rest]
                    have harith :
                        ((0 * 16 + 0) * 16 + c.toNat / 16) * 16 + c.toNat % 16 = c.toNat := by
                      omega
                    rw [harith, Char.ofNat_toNat]
                    rfl
                  · rw [escapeChar_plain h1 h2 h3 h4 h5 h6 h7 h8]
                    simp only [List.cons_append, List.nil_append]
                    rw [parseStrAux_cons_other h1 h2 h8 _, ih rest]
                    rfl

theorem parseStrAux_verbatim : ∀ (k : List Char), (∀ c ∈ k, goodKeyChar c = true) →
    ∀ rest : List Char, parseStrAux (k ++ '"' :: rest) = some (k, rest) := by
  intro k
  induction k with
  | nil =>
    intro _ rest
    rw [List.nil_append]
    exact parseStrAux_quote rest
  | cons c cs ih =>
    intro hk rest
    have hc := hk c (List.mem_cons_self c cs)
    simp only [goodKeyChar, Bool.not_eq_eq_eq_not, Bool.not_true, Bool.or_eq_false_iff,
      decide_eq_false_iff_not] at hc
    rw [List.cons_append, parseStrAux_cons_other hc.1.1 hc.1.2 (by omega) _]
    rw [ih (fun d hd => hk d (List.mem_cons_of_mem c hd)) rest]
    rfl

theorem takeWhile_eq_self_of (p : Char → Bool) :
    ∀ {l : List Char}, (∀ c ∈ l, p c = true) → l.takeWhile p = l := by
  intro l
  induction l with
  | nil => intro _; rfl
  | cons c cs ih =>
    intro h
    rw [List.takeWhile_cons, h c (List.mem_cons_self c cs)]
    simp only [ite_true]
    rw [ih fun d hd => h d (List.mem_cons_of_mem c hd)]

theorem dropWhile_eq_nil_of (p : Char → Bool) :
    ∀ {l : List Char}, (∀ c ∈ l, p c = true) → l.dropWhile p = [] := by
  intro l
  induction l with
  | nil => intro _; rfl
  | cons c cs ih =>
    intro h
    rw [List.dropWhile_cons, h c (List.mem_cons_self c cs)]
    simp only [ite_true]
    exact ih fun d hd => h d (List.mem_cons_of_mem c hd)

theorem takeWhile_digits_append : ∀ (l rest : List Char),
    (∀ c ∈ l, isDigit09 c = true) → (∀ d t, rest = d :: t → isDigit09 d = false) →
    (l ++ rest).takeWhile isDigit09 = l ∧ (l ++ rest).dropWhile isDigit09 = rest := by
  intro l rest hl hrest
  have htake : rest.takeWhile isDigit09 = [] := by
    cases rest with
    | nil => rfl
    | cons d t => rw [List.takeWhile_cons, hrest d t rfl]; rfl
  have hdrop : rest.dropWhile isDigit09 = rest := by
    cases rest with
    | nil => rfl
    | cons d t => rw [List.dropWhile_cons, hrest d t rfl]; rfl
  constructor
  · rw [List.takeWhile_append, if_pos (by rw [takeWhile_eq_self_of isDigit09 hl]), htake]
    simp
  · rw [List.dropWhile_append, if_pos (by rw [dropWhile_eq_nil_of isDigit09 hl]; rfl), hdrop]

theorem parseNum_natRepr : ∀ (m : Nat) (rest : List Char),
    (∀ d t, rest = d :: t → isDigit09 d = false) →
    parseNum (natRepr m ++ rest) = some (.num (Int.ofNat m), rest) := by
  intro m rest hrest
  obtain ⟨tw, dw⟩ := takeWhile_digits_append (natRepr m) rest (natRepr_all_digits m) hrest
  cases hrepr : natRepr m with
  | nil => exact absurd hrepr (natRepr_ne_nil m)
  | cons d t =>
    have hd : isDigit09 d = true := natRepr_all_digits m d (by rw [hrepr]; simp)
    rw [hrepr] at tw dw
    unfold parseNum
    split
    · rename_i rest2 heq
      rw [List.cons_append, List.cons_eq_cons] at heq
      have : isDigit09 '-' = true := heq.1 ▸ hd
      exact absurd this (by decide)
    · simp only [tw, dw]
      rw [if_neg (by simp)]
      rw [← hrepr, digitsVal_natRepr]

theorem parseNum_neg_natRepr : ∀ (m : Nat) (rest : List Char),
    (∀ d t, rest = d :: t → isDigit09 d = false) →
    parseNum ('-' :: (natRepr m ++ rest)) =
      some (.num (-(Int.ofNat m)), rest) := by
  intro m rest hrest
  obtain ⟨tw, dw⟩ := takeWhile_digits_append (natRepr m) rest (natRepr_all_digits m) hrest
  unfold parseNum
  simp only [tw, dw]
  rw [if_neg (natRepr_ne_nil m)]
  rw [digitsVal_natRepr]

theorem jsize_arr (es : List JValue) :
    jsize (.arr es) = 1 + (es.map jsize).sum + es.length := by
  rw [jsize]
  rw [List.attach_map_val es jsize]

theorem jsize_obj (ms : List (List Char × JValue)) :
    jsize (.obj ms) = 1 + (ms.map fun m => jsize m.2).sum + ms.length := by
  rw [jsize]
  rw [List.attach_map_val ms fun m => jsize m.2]

theorem jsize_pos : ∀ v : JValue, 1 ≤ jsize v := by
  intro v
  cases v with
  | arr es => rw [jsize_arr]; omega
  | obj ms => rw [jsize_obj]; omega
  | null => rw [jsize]
  | bool b => rw [jsize]
  | num n => rw [jsize]
  | str s => rw [jsize]

theorem char_ne_of_toNat_ne : ∀ {a b : Char}, a.toNat ≠ b.toNat → a ≠ b :=
  fun h hab => h (congrArg Char.toNat hab)

theorem isDigit09_not_ws : ∀ {c : Char}, isDigit09 c = true → isWsChar c = false := by
  intro c h
  simp only [isDigit09, Bool.and_eq_true, decide_eq_true_eq] at h
  simp only [isWsChar, Bool.or_eq_false_iff, decide_eq_false_iff_not]
  omega

theorem natRepr_head : ∀ m : Nat, ∃ (d : Char) (t : List Char),
    natRepr m = d :: t ∧ isDigit09 d = true := by
  intro m
  cases hrepr : natRepr m with
  | nil => exact absurd hrepr (natRepr_ne_nil m)
  | cons d t =>
    exact ⟨d, t, rfl, natRepr_all_digits m d (by rw [hrepr]; simp)⟩

theorem indent_head : ∀ (v : JValue) (lvl maxl : Nat),
    ∃ (c : Char) (t : List Char), indent_json_2levels v lvl maxl = c :: t ∧
      isWsChar c = false ∧ c ≠ ']' ∧ c ≠ rbrace := by
  intro v lvl maxl
  cases v with
  | null =>
    rw [indent_scalar (by intro es h; cases h) (by intro ms h; cases h), dumps]
    exact ⟨'n', _, rfl, by decide, by decide, by decide⟩
  | bool b =>
    cases b
    · rw [indent_scalar (by intro es h; cases h) (by intro ms h; cases h), dumps]
      exact ⟨'f', _, rfl, by decide, by decide, by decide⟩
    · rw [indent_scalar (by intro es h; cases h) (by intro ms h; cases h), dumps]
      exact ⟨'t', _, rfl, by decide, by decide, by decide⟩
  | num n =>
    rw [indent_scalar (by intro es h; cases h) (by intro ms h; cases h), dumps]
    unfold intRepr
    by_cases hneg : n < 0
    · rw [if_pos hneg]
      exact ⟨'-', _, rfl, by decide, by decide, by decide⟩
    · rw [if_neg hneg]
      obtain ⟨d, t, hdt, hd⟩ := natRepr_head n.natAbs
      rw [hdt]
      refine ⟨d, t, rfl, isDigit09_not_ws hd, ?_, ?_⟩
      · refine char_ne_of_toNat_ne ?_
        simp only [isDigit09, Bool.and_eq_true, decide_eq_true_eq] at hd
        have h93 : (']').toNat = 93 := rfl
        omega
      · refine char_ne_of_toNat_ne ?_
        simp only [isDigit09, Bool.and_eq_true, decide_eq_true_eq] at hd
        have h125 : rbrace.toNat = 125 := rfl
        omega
  | str s =>
    rw [indent_scalar (by intro es h; cases h) (by intro ms h; cases h), dumps]
    exact ⟨'"', _, rfl, by decide, by decide, by decide⟩
  | arr es =>
    by_cases h : maxl ≤ lvl
    · rw [indent_of_cutoff h, dumps_arr]
      exact ⟨'[', _, rfl, by decide, by decide, by decide⟩
    · rw [indent_arr (by omega) es, List.cons_append,
        joinNl_cons ['['] _ (by
          cases h2 : withCommas (es.map fun e => indentSp (lvl + 1) ++
            indent_json_2levels e (lvl + 1) maxl) <;> simp [h2])]
      exact ⟨'[', _, rfl, by decide, by decide, by decide⟩
  | obj ms =>
    by_cases h : maxl ≤ lvl
    · rw [indent_of_cutoff h, dumps_obj]
      exact ⟨lbrace, _, rfl, by decide, by decide, by decide⟩
    · rw [indent_obj (by omega) ms, List.cons_append,
        joinNl_cons [lbrace] _ (by
          cases h2 : withCommas (ms.map fun m => indentSp (lvl + 1) ++ '"' :: m.1 ++
            '"' :: ':' :: ' ' :: indent_json_2levels m.2 (lvl + 1) maxl) <;> simp [h2])]
      exact ⟨lbrace, _, rfl, by decide, by decide, by decide⟩

theorem length_intercalate (sep : List Char) : ∀ ls : List (List Char),
    (List.intercalate sep ls).length =
      (ls.map List.length).sum + (ls.length - 1) * sep.length := by
  intro ls
  induction ls with
  | nil => simp [List.intercalate]
  | cons x xs ih =>
    cases xs with
    | nil => simp [List.intercalate]
    | cons y zs =>
      rw [intercalate_two]
      simp only [List.length_append, List.map_cons, List.sum_cons, List.length_cons,
        Nat.add_sub_cancel] at ih ⊢
      rw [ih]
      ring

theorem length_escapeString (s : List Char) : 2 ≤ (escapeString s).length := by
  unfold escapeString
  simp

theorem length_intRepr (n : Int) : 1 ≤ (intRepr n).length := by
  unfold intRepr
  split_ifs with h
  · simp
  · exact List.length_pos.mpr (natRepr_ne_nil n.natAbs)

theorem jsize_le_dumps : ∀ v : JValue, jsize v ≤ (dumps v).length := by
  intro v
  induction v using JValue.inductionOn with
  | hnull => rw [jsize, dumps]; decide
  | hbool b => cases b <;> (rw [jsize, dumps]; decide)
  | hnum n => rw [jsize, dumps]; exact length_intRepr n
  | hstr s =>
    rw [jsize, dumps]
    have := length_escapeString s
    omega
  | harr es ih =>
    rw [jsize_arr, dumps_arr]
    unfold commaJoin
    simp only [List.length_cons, List.length_append, List.length_singleton]
    rw [length_intercalate]
    have hsum : (es.map jsize).sum ≤ ((es.map dumps).map List.length).sum := by
      rw [List.map_map]
      exact List.sum_le_sum fun e he => ih e he
    simp only [List.length_map]
    cases es with
    | nil => simp
    | cons e es2 =>
      simp only [List.length_cons, List.length_nil, List.length_singleton,
        Nat.add_sub_cancel, Nat.mul_one, Nat.zero_add] at hsum ⊢
      omega
  | hobj ms ih =>
    rw [jsize_obj, dumps_obj]
    unfold commaJoin
    simp only [List.length_cons, List.length_append, List.length_singleton]
    rw [length_intercalate]
    have hsum : (ms.map fun m => jsize m.2).sum ≤
        ((ms.map fun m => escapeString m.1 ++ ':' :: dumps m.2).map List.length).sum := by
      rw [List.map_map]
      refine List.sum_le_sum fun m hm => ?_
      show jsize m.2 ≤ (escapeString m.1 ++ ':' :: dumps m.2).length
      simp only [List.length_append, List.length_cons]
      have h1 := ih m hm
      omega
    simp only [List.length_map]
    cases ms with
    | nil => simp
    | cons m ms2 =>
      simp only [List.length_cons, List.length_nil, List.length_singleton,
        Nat.add_sub_cancel, Nat.mul_one, Nat.zero_add] at hsum ⊢
      omega

theorem indent_obj_eq : ∀ {current maxLevel : Nat}, current < maxLevel →
    ∀ ms : List (List Char × JValue), ms ≠ [] →
      indent_json_2levels (.obj ms) current maxLevel =
        lbrace :: '\n' ::
          (List.intercalate (',' :: '\n' :: [])
            (ms.map fun m => indentSp (current + 1) ++ '"' :: m.1 ++ '"' :: ':' :: ' ' ::
              indent_json_2levels m.2 (current + 1) maxLevel) ++
          '\n' :: (indentSp current ++ [rbrace])) := by
  intro current maxLevel hlt ms hne
  rw [indent_obj hlt ms]
  rw [List.cons_append]
  rw [joinNl_cons [lbrace] _ (by
    cases h2 : withCommas (ms.map fun m => indentSp (current + 1) ++ '"' :: m.1 ++
      '"' :: ':' :: ' ' :: indent_json_2levels m.2 (current + 1) maxLevel) <;> simp [h2])]
  rw [joinNl_withCommas _ _ (by simpa using hne)]
  rfl

theorem indent_arr_eq : ∀ {current maxLevel : Nat}, current < maxLevel →
    ∀ es : List JValue, es ≠ [] →
      indent_json_2levels (.arr es) current maxLevel =
        '[' :: '\n' ::
          (List.intercalate (',' :: '\n' :: [])
            (es.map fun e => indentSp (current + 1) ++
              indent_json_2levels e (current + 1) maxLevel) ++
          '\n' :: (indentSp current ++ [']'])) := by
  intro current maxLevel hlt es hne
  rw [indent_arr hlt es]
  rw [List.cons_append]
  rw [joinNl_cons ['['] _ (by
    cases h2 : withCommas (es.map fun e => indentSp (current + 1) ++
      indent_json_2levels e (current + 1) maxLevel) <;> simp [h2])]
  rw [joinNl_withCommas _ _ (by simpa using hne)]
  rfl

theorem jsize_le_indent : ∀ (v : JValue) (lvl maxl : Nat),
    jsize v ≤ (indent_json_2levels v lvl maxl).length := by
  intro v
  induction v using JValue.inductionOn with
  | hnull =>
    intro lvl maxl
    rw [indent_scalar (by intro es h; cases h) (by intro ms h; cases h)]
    exact jsize_le_dumps _
  | hbool b =>
    intro lvl maxl
    rw [indent_scalar (by intro es h; cases h) (by intro ms h; cases h)]
    exact jsize_le_dumps _
  | hnum n =>
    intro lvl maxl
    rw [indent_scalar (by intro es h; cases h) (by intro ms h; cases h)]
    exact jsize_le_dumps _
  | hstr s =>
    intro lvl maxl
    rw [indent_scalar (by intro es h; cases h) (by intro ms h; cases h)]
    exact jsize_le_dumps _
  | harr es ih =>
    intro lvl maxl
    by_cases h : maxl ≤ lvl
    · rw [indent_of_cutoff h]
      exact jsize_le_dumps _
    · cases es with
      | nil =>
        rw [jsize_arr]
        rw [indent_arr (by omega) []]
        simp [joinNl, List.intercalate, withCommas, List.intersperse]
      | cons e es2 =>
        rw [jsize_arr, indent_arr_eq (by omega) (e :: es2) (List.cons_ne_nil _ _)]
        simp only [List.length_cons, List.length_append]
        rw [length_intercalate]
        have hsum : ((e :: es2).map jsize).sum ≤
            (((e :: es2).map fun x => indentSp (lvl + 1) ++
              indent_json_2levels x (lvl + 1) maxl).map List.length).sum := by
          rw [List.map_map]
          refine List.sum_le_sum fun x hx => ?_
          show jsize x ≤ (indentSp (lvl + 1) ++ indent_json_2levels x (lvl + 1) maxl).length
          simp only [List.length_append]
          have := ih x hx (lvl + 1) maxl
          omega
        simp only [List.map_cons, List.sum_cons, List.length_cons, List.length_nil,
          List.length_map, Nat.add_sub_cancel] at hsum ⊢
        omega
  | hobj ms ih =>
    intro lvl maxl
    by_cases h : maxl ≤ lvl
    · rw [indent_of_cutoff h]
      exact jsize_le_dumps _
    · cases ms with
      | nil =>
        rw [jsize_obj]
        rw [indent_obj (by omega) []]
        simp [joinNl, List.intercalate, withCommas, List.intersperse]
      | cons m ms2 =>
        rw [jsize_obj, indent_obj_eq (by omega) (m :: ms2) (List.cons_ne_nil _ _)]
        simp only [List.length_cons, List.length_append]
        rw [length_intercalate]
        have hsum : ((m :: ms2).map fun x => jsize x.2).sum ≤
            (((m :: ms2).map fun x => indentSp (lvl + 1) ++ '"' :: x.1 ++ '"' :: ':' :: ' ' ::
              indent_json_2levels x.2 (lvl + 1) maxl).map List.length).sum := by
          rw [List.map_map]
          refine List.sum_le_sum fun x hx => ?_
          show jsize x.2 ≤ (indentSp (lvl + 1) ++ '"' :: x.1 ++ '"' :: ':' :: ' ' ::
            indent_json_2levels x.2 (lvl + 1) maxl).length
          simp only [List.length_append, List.length_cons]
          have := ih x hx (lvl + 1) maxl
          omega
        simp only [List.map_cons, List.sum_cons, List.length_cons, List.length_nil,
          List.length_map, Nat.add_sub_cancel] at hsum ⊢
        omega

theorem isWsChar_not_digit : ∀ {c : Char}, isWsChar c = true → isDigit09 c = false := by
  intro c h
  simp only [isWsChar, Bool.or_eq_true, decide_eq_true_eq] at h
  simp only [isDigit09, Bool.and_eq_false_iff, decide_eq_false_iff_not]
  omega

theorem guard_ws_cons : ∀ {wsC : List Char}, (∀ c ∈ wsC, isWsChar c = true) →
    ∀ {z : Char}, isDigit09 z = false → ∀ (rest : List Char) (d : Char) (t : List Char),
      wsC ++ z :: rest = d :: t → isDigit09 d = false := by
  intro wsC hws z hz rest d t heq
  cases wsC with
  | nil =>
    rw [List.nil_append, List.cons_eq_cons] at heq
    exact heq.1 ▸ hz
  | cons c cs =>
    rw [List.cons_append, List.cons_eq_cons] at heq
    exact heq.1 ▸ isWsChar_not_digit (hws c (List.mem_cons_self c cs))

theorem parseElems_ok (R : JValue → List Char) :
    ∀ (es : List JValue) (fuel : Nat) (w wsB wsC rest : List Char),
      es ≠ [] →
      (∀ c ∈ w, isWsChar c = true) →
      (∀ c ∈ wsB, isWsChar c = true) →
      (∀ c ∈ wsC, isWsChar c = true) →
      (∀ e ∈ es, ∀ (f : Nat) (r : List Char), jsize e ≤ f →
        (∀ d t, r = d :: t → isDigit09 d = false) →
        parseVal f (R e ++ r) = some (e, r)) →
      (es.map jsize).sum + es.length ≤ fuel →
      parseElems fuel
        (w ++ (List.intercalate (',' :: wsB) (es.map R) ++ (wsC ++ ']' :: rest))) =
        some (es, rest) := by
  intro es
  induction es with
  | nil => intro fuel w wsB wsC rest hne; exact absurd rfl hne
  | cons e es2 ih =>
    intro fuel w wsB wsC rest _ hw hwB hwC hR hfuel
    have hje : 1 ≤ jsize e := jsize_pos e
    have hfuel1 : 1 ≤ fuel := by
      simp only [List.map_cons, List.sum_cons, List.length_cons] at hfuel
      omega
    obtain ⟨f, rfl⟩ : ∃ f, fuel = f + 1 := ⟨fuel - 1, by omega⟩
    simp only [List.map_cons, List.sum_cons, List.length_cons] at hfuel
    rw [parseElems]
    cases es2 with
    | nil =>
      have hint : List.intercalate (',' :: wsB) (List.map R [e]) = R e := by
        simp [List.intercalate]
      rw [hint]
      have hguard : ∀ d t, wsC ++ ']' :: rest = d :: t → isDigit09 d = false :=
        guard_ws_cons hwC (by decide) rest
      have hparse : parseVal f (w ++ (R e ++ (wsC ++ ']' :: rest))) =
          some (e, wsC ++ ']' :: rest) := by
        rw [parseVal_ws_leading hw]
        exact hR e (by simp) f _ (by omega) hguard
      rw [hparse]
      show (match skipWs (wsC ++ ']' :: rest) with
        | ']' :: r2 => some ([e], r2)
        | ',' :: r2 => (parseElems f r2).bind fun p => some (e :: p.1, p.2)
        | _ => none) = some ([e], rest)
      rw [skipWs_ws_append hwC, skipWs_cons_nonws (by decide)]
      rfl
    | cons e2 es3 =>
      have hint : List.intercalate (',' :: wsB) (List.map R (e :: e2 :: es3)) ++
          (wsC ++ ']' :: rest) =
          R e ++ ((',' :: wsB) ++ (List.intercalate (',' :: wsB) (List.map R (e2 :: es3)) ++
            (wsC ++ ']' :: rest))) := by
        rw [List.map_cons, List.map_cons, intercalate_two]
        simp [List.append_assoc]
      rw [hint]
      have hguard : ∀ d t,
          (',' :: wsB) ++ (List.intercalate (',' :: wsB) (List.map R (e2 :: es3)) ++
            (wsC ++ ']' :: rest)) = d :: t → isDigit09 d = false := by
        intro d t heq
        rw [List.cons_append, List.cons_eq_cons] at heq
        exact heq.1 ▸ (by decide)
      have hparse : parseVal f (w ++ (R e ++ ((',' :: wsB) ++
          (List.intercalate (',' :: wsB) (List.map R (e2 :: es3)) ++ (wsC ++ ']' :: rest))))) =
          some (e, (',' :: wsB) ++ (List.intercalate (',' :: wsB) (List.map R (e2 :: es3)) ++
            (wsC ++ ']' :: rest))) := by
        rw [parseVal_ws_leading hw]
        exact hR e (by simp) f _ (by omega) hguard
      rw [hparse]
      show (match skipWs ((',' :: wsB) ++ (List.intercalate (',' :: wsB)
          (List.map R (e2 :: es3)) ++ (wsC ++ ']' :: rest))) with
        | ']' :: r2 => some ([e], r2)
        | ',' :: r2 => (parseElems f r2).bind fun p => some (e :: p.1, p.2)
        | _ => none) = some (e :: e2 :: es3, rest)
      rw [List.cons_append, skipWs_cons_nonws (by decide)]
      show (parseElems f (wsB ++ (List.intercalate (',' :: wsB) (List.map R (e2 :: es3)) ++
        (wsC ++ ']' :: rest)))).bind (fun p => some (e :: p.1, p.2)) = some (e :: e2 :: es3, rest)
      rw [ih f wsB wsB wsC rest (List.cons_ne_nil _ _) hwB hwB hwC
        (fun x hx => hR x (List.mem_cons_of_mem e hx)) (by
          simp only [List.map_cons, List.sum_cons, List.length_cons] at hfuel ⊢
          omega)]
      rfl

theorem parseMembers_ok (R : JValue → List Char) (KB : List Char → List Char) :
    ∀ (ms : List (List Char × JValue)) (fuel : Nat) (w wsB wsV wsC rest : List Char),
      ms ≠ [] →
      (∀ c ∈ w, isWsChar c = true) →
      (∀ c ∈ wsB, isWsChar c = true) →
      (∀ c ∈ wsV, isWsChar c = true) →
      (∀ c ∈ wsC, isWsChar c = true) →
      (∀ m ∈ ms, ∀ x : List Char, parseStrAux (KB m.1 ++ '"' :: x) = some (m.1, x)) →
      (∀ m ∈ ms, ∀ (f : Nat) (r : List Char), jsize m.2 ≤ f →
        (∀ d t, r = d :: t → isDigit09 d = false) →
        parseVal f (R m.2 ++ r) = some (m.2, r)) →
      (ms.map fun m => jsize m.2).sum + ms.length ≤ fuel →
      parseMembers fuel
        (w ++ (List.intercalate (',' :: wsB)
          (ms.map fun m => '"' :: (KB m.1 ++ ('"' :: ':' :: (wsV ++ R m.2)))) ++
          (wsC ++ rbrace :: rest))) = some (ms, rest) := by
  intro ms
  induction ms with
  | nil => intro fuel w wsB wsV wsC rest hne; exact absurd rfl hne
  | cons m ms2 ih =>
    intro fuel w wsB wsV wsC rest _ hw hwB hwV hwC hKB hR hfuel
    have hjm : 1 ≤ jsize m.2 := jsize_pos m.2
    have hfuel1 : 1 ≤ fuel := by
      simp only [List.map_cons, List.sum_cons, List.length_cons] at hfuel
      omega
    obtain ⟨f, rfl⟩ : ∃ f, fuel = f + 1 := ⟨fuel - 1, by omega⟩
    simp only [List.map_cons, List.sum_cons, List.length_cons] at hfuel
    cases ms2 with
    | nil =>
      have hshape : w ++ (List.intercalate (',' :: wsB)
          (List.map (fun m => '"' :: (KB m.1 ++ ('"' :: ':' :: (wsV ++ R m.2)))) [m]) ++
          (wsC ++ rbrace :: rest)) =
          w ++ ('"' :: (KB m.1 ++ ('"' :: ':' ::
            (wsV ++ (R m.2 ++ (wsC ++ rbrace :: rest)))))) := by
        simp [List.intercalate, List.cons_append, List.append_assoc]
      rw [hshape, parseMembers]
      rw [skipWs_ws_append hw, skipWs_cons_nonws (by decide)]
      split
      · rename_i cs heq
        rw [List.cons_eq_cons] at heq
        obtain ⟨-, hcs⟩ := heq
        subst hcs
        rw [hKB m (by simp) (':' :: (wsV ++ (R m.2 ++ (wsC ++ rbrace :: rest))))]
        simp only [Option.bind_eq_bind, Option.some_bind]
        rw [skipWs_cons_nonws (by decide)]
        split
        · rename_i r2 heq2
          rw [List.cons_eq_cons] at heq2
          obtain ⟨-, hr2⟩ := heq2
          subst hr2
          rw [parseVal_ws_leading hwV]
          rw [hR m (by simp) f _ (by omega) (guard_ws_cons hwC (by decide) rest)]
          simp only [Option.bind_eq_bind, Option.some_bind]
          rw [skipWs_ws_append hwC, skipWs_cons_nonws (by decide)]
          split
          · rename_i c r4 heq3
            rw [List.cons_eq_cons] at heq3
            obtain ⟨hc, hr4⟩ := heq3
            subst hc
            subst hr4
            rw [if_pos rfl]
          · rename_i heq3
            simp at heq3
        · rename_i hno heq2
          exact absurd heq2 (by simp)
      · rename_i hno heq
        exact absurd heq (by simp)
    | cons m2 ms3 =>
      have hshape : w ++ (List.intercalate (',' :: wsB)
          (List.map (fun m => '"' :: (KB m.1 ++ ('"' :: ':' :: (wsV ++ R m.2))))
            (m :: m2 :: ms3)) ++ (wsC ++ rbrace :: rest)) =
          w ++ ('"' :: (KB m.1 ++ ('"' :: ':' :: (wsV ++ (R m.2 ++ ((',' :: wsB) ++
            (List.intercalate (',' :: wsB)
              (List.map (fun m => '"' :: (KB m.1 ++ ('"' :: ':' :: (wsV ++ R m.2))))
                (m2 :: ms3)) ++ (wsC ++ rbrace :: rest)))))))) := by
        rw [List.map_cons, List.map_cons, intercalate_two]
        simp [List.cons_append, List.append_assoc]
      rw [hshape, parseMembers]
      rw [skipWs_ws_append hw, skipWs_cons_nonws (by decide)]
      split
      · rename_i cs heq
        rw [List.cons_eq_cons] at heq
        obtain ⟨-, hcs⟩ := heq
        subst hcs
        rw [hKB m (by simp)]
        simp only [Option.bind_eq_bind, Option.some_bind]
        rw [skipWs_cons_nonws (by decide)]
        split
        · rename_i r2 heq2
          rw [List.cons_eq_cons] at heq2
          obtain ⟨-, hr2⟩ := heq2
          subst hr2
          rw [parseVal_ws_leading hwV]
          rw [hR m (by simp) f _ (by omega) (by
            intro d t heq4
            rw [List.cons_append, List.cons_eq_cons] at heq4
            exact heq4.1 ▸ (by decide))]
          simp only [Option.bind_eq_bind, Option.some_bind]
          rw [List.cons_append, skipWs_cons_nonws (by decide)]
          split
          · rename_i c r4 heq3
            rw [List.cons_eq_cons] at heq3
            obtain ⟨hc, hr4⟩ := heq3
            subst hc
            subst hr4
            rw [if_neg (by decide), if_pos rfl]
            rw [ih f wsB wsB wsV wsC rest (List.cons_ne_nil _ _) hwB hwB hwV hwC
              (fun x hx => hKB x (List.mem_cons_of_mem m hx))
              (fun x hx => hR x (List.mem_cons_of_mem m hx)) (by omega)]
            rfl
          · rename_i heq3
            simp at heq3
        · rename_i hno heq2
          exact absurd heq2 (by simp)
      · rename_i hno heq
        exact absurd heq (by simp)

theorem indentSp_ws : ∀ (k : Nat), ∀ c ∈ indentSp k, isWsChar c = true := by
  intro k c hc
  unfold indentSp at hc
  rw [List.eq_of_mem_replicate hc]
  decide

theorem digit_not_value_start : ∀ {d : Char}, isDigit09 d = true →
    d ≠ 'n' ∧ d ≠ 't' ∧ d ≠ 'f' ∧ d ≠ '"' ∧ d ≠ '[' ∧ d ≠ lbrace ∧ d ≠ '-' := by
  intro d h
  simp only [isDigit09, Bool.and_eq_true, decide_eq_true_eq] at h
  refine ⟨char_ne_of_toNat_ne ?_, char_ne_of_toNat_ne ?_, char_ne_of_toNat_ne ?_,
    char_ne_of_toNat_ne ?_, char_ne_of_toNat_ne ?_, char_ne_of_toNat_ne ?_,
    char_ne_of_toNat_ne ?_⟩ <;>
    · first
      | (show _ ≠ (110 : Nat); omega)
      | (show _ ≠ (116 : Nat); omega)
      | (show _ ≠ (102 : Nat); omega)
      | (show _ ≠ (34 : Nat); omega)
      | (show _ ≠ (91 : Nat); omega)
      | (show _ ≠ (123 : Nat); omega)
      | (show _ ≠ (45 : Nat); omega)

theorem intercalate_map_append (p sep : List Char) (g : (List Char × JValue) → List Char) :
    ∀ ms : List (List Char × JValue), ms ≠ [] →
      List.intercalate sep (ms.map fun x => p ++ g x) =
        p ++ List.intercalate (sep ++ p) (ms.map g) := by
  intro ms
  induction ms with
  | nil => intro h; exact absurd rfl h
  | cons m ms2 ih =>
    intro _
    cases ms2 with
    | nil => simp [List.intercalate]
    | cons m2 ms3 =>
      have h2 := ih (List.cons_ne_nil m2 ms3)
      rw [List.map_cons (fun x => p ++ g x) m2 ms3] at h2
      rw [List.map_cons, List.map_cons, intercalate_two, h2]
      rw [List.map_cons g m (m2 :: ms3), List.map_cons g m2 ms3, intercalate_two]
      simp [List.append_assoc]

theorem intercalate_map_append_arr (p sep : List Char) (g : JValue → List Char) :
    ∀ es : List JValue, es ≠ [] →
      List.intercalate sep (es.map fun x => p ++ g x) =
        p ++ List.intercalate (sep ++ p) (es.map g) := by
  intro es
  induction es with
  | nil => intro h; exact absurd rfl h
  | cons e es2 ih =>
    intro _
    cases es2 with
    | nil => simp [List.intercalate]
    | cons e2 es3 =>
      have h2 := ih (List.cons_ne_nil e2 es3)
      rw [List.map_cons (fun x => p ++ g x) e2 es3] at h2
      rw [List.map_cons, List.map_cons, intercalate_two, h2]
      rw [List.map_cons g e (e2 :: es3), List.map_cons g e2 es3, intercalate_two]
      simp [List.append_assoc]

theorem goodKeysB_arr : ∀ {es : List JValue}, goodKeysB (.arr es) = true →
    ∀ e ∈ es, goodKeysB e = true := by
  intro es h e he
  rw [goodKeysB] at h
  rw [List.all_eq_true] at h
  exact h ⟨e, he⟩ (List.mem_attach es ⟨e, he⟩)

theorem goodKeysB_obj : ∀ {ms : List (List Char × JValue)}, goodKeysB (.obj ms) = true →
    ∀ m ∈ ms, (∀ c ∈ m.1, goodKeyChar c = true) ∧ goodKeysB m.2 = true := by
  intro ms h m hm
  rw [goodKeysB] at h
  rw [List.all_eq_true] at h
  have := h ⟨m, hm⟩ (List.mem_attach ms ⟨m, hm⟩)
  rw [Bool.and_eq_true] at this
  exact ⟨List.all_eq_true.mp this.1, this.2⟩

theorem intercalate_cons_exists (sep x : List Char) (xs : List (List Char)) :
    ∃ y, List.intercalate sep (x :: xs) = x ++ y := by
  cases xs with
  | nil => exact ⟨[], by simp [List.intercalate]⟩
  | cons z zs =>
    refine ⟨sep ++ List.intercalate sep (z :: zs), ?_⟩
    rw [intercalate_two]
    simp [List.append_assoc]

theorem parseVal_null (f : Nat) (rest : List Char) :
    parseVal (f + 1) ('n' :: 'u' :: 'l' :: 'l' :: rest) = some (.null, rest) := by
  rw [parseVal, skipWs_cons_nonws (by decide)]
  simp

theorem parseVal_boolT (f : Nat) (rest : List Char) :
    parseVal (f + 1) ('t' :: 'r' :: 'u' :: 'e' :: rest) = some (.bool true, rest) := by
  rw [parseVal, skipWs_cons_nonws (by decide)]
  simp

theorem parseVal_boolF (f : Nat) (rest : List Char) :
    parseVal (f + 1) ('f' :: 'a' :: 'l' :: 's' :: 'e' :: rest) = some (.bool false, rest) := by
  rw [parseVal, skipWs_cons_nonws (by decide)]
  simp

theorem parseVal_str (f : Nat) (s rest : List Char) :
    parseVal (f + 1) (escapeString s ++ rest) = some (.str s, rest) := by
  have hshape : escapeString s ++ rest =
      '"' :: ((s.map escapeChar).flatten ++ ('"' :: rest)) := by
    simp [escapeString, List.append_assoc]
  rw [hshape]
  have hstep : parseVal (f + 1) ('"' :: ((s.map escapeChar).flatten ++ ('"' :: rest))) =
      (parseStrAux ((s.map escapeChar).flatten ++ ('"' :: rest))).map
        fun p => (JValue.str p.1, p.2) := by
    rw [parseVal, skipWs_cons_nonws (by decide)]
    rfl
  rw [hstep, parseStrAux_escaped s rest]
  rfl

theorem parseVal_num (f : Nat) (n : Int) (rest : List Char)
    (hrest : ∀ d t, rest = d :: t → isDigit09 d = false) :
    parseVal (f + 1) (intRepr n ++ rest) = some (.num n, rest) := by
  unfold intRepr
  by_cases hneg : n < 0
  · rw [if_pos hneg, List.cons_append]
    have hstep : parseVal (f + 1) ('-' :: (natRepr n.natAbs ++ rest)) =
        parseNum ('-' :: (natRepr n.natAbs ++ rest)) := by
      rw [parseVal, skipWs_cons_nonws (by decide)]
      rfl
    rw [hstep, parseNum_neg_natRepr n.natAbs rest hrest]
    have hn : -(Int.ofNat n.natAbs) = n := by
      rw [Int.ofNat_eq_natCast]
      omega
    rw [hn]
  · rw [if_neg hneg]
    obtain ⟨d, t, hdt, hd⟩ := natRepr_head n.natAbs
    have hne := digit_not_value_start hd
    rw [hdt, List.cons_append]
    rw [parseVal, skipWs_cons_nonws (isDigit09_not_ws hd)]
    split
    · rename_i heq
      simp at heq
    · rename_i c cs heq
      rw [List.cons_eq_cons] at heq
      obtain ⟨hc, hcs⟩ := heq
      subst hc
      subst hcs
      rw [if_neg hne.1, if_neg hne.2.1, if_neg hne.2.2.1, if_neg hne.2.2.2.1,
        if_neg hne.2.2.2.2.1, if_neg hne.2.2.2.2.2.1, if_pos (Or.inr hd)]
      rw [← List.cons_append, ← hdt, parseNum_natRepr n.natAbs rest hrest]
      have hn : Int.ofNat n.natAbs = n := by
        rw [Int.ofNat_eq_natCast]
        omega
      rw [hn]

theorem parseVal_arr_step (f : Nat) (cs : List Char) (c0 : Char) (t0 : List Char)
    (hskip : skipWs cs = c0 :: t0) (hne : c0 ≠ ']') :
    parseVal (f + 1) ('[' :: cs) = (parseElems f cs).map fun p => (.arr p.1, p.2) := by
  rw [parseVal, skipWs_cons_nonws (by decide)]
  show (match skipWs cs with
    | ']' :: rest => some (JValue.arr [], rest)
    | s1 => (parseElems f s1).map fun p => (JValue.arr p.1, p.2)) =
    (parseElems f cs).map fun p => (JValue.arr p.1, p.2)
  rw [hskip]
  split
  · rename_i r heq
    rw [List.cons_eq_cons] at heq
    exact absurd heq.1 hne
  · rw [← hskip, parseElems_skipWs]

theorem parseVal_obj_step (f : Nat) (cs : List Char) (c0 : Char) (t0 : List Char)
    (hskip : skipWs cs = c0 :: t0) (hne : c0 ≠ rbrace) :
    parseVal (f + 1) (lbrace :: cs) = (parseMembers f cs).map fun p => (.obj p.1, p.2) := by
  rw [parseVal, skipWs_cons_nonws (by decide)]
  show (match skipWs cs with
    | d :: rest =>
      if d = rbrace then some (JValue.obj [], rest)
      else (parseMembers f (d :: rest)).map fun p => (JValue.obj p.1, p.2)
    | [] => none) =
    (parseMembers f cs).map fun p => (JValue.obj p.1, p.2)
  rw [hskip]
  split
  · rename_i d r heq
    rw [List.cons_eq_cons] at heq
    obtain ⟨hd, hr⟩ := heq
    subst hd
    subst hr
    rw [if_neg hne, ← hskip, parseMembers_skipWs]
  · rename_i heq
    simp at heq

theorem intercalate_map_cons_exists {α : Type} (sep : List Char) (g : α → List Char)
    (e : α) (es : List α) :
    ∃ y, List.intercalate sep ((e :: es).map g) = g e ++ y := by
  rw [List.map_cons]
  exact intercalate_cons_exists sep (g e) (es.map g)

theorem parseVal_arr_empty (f : Nat) (cs rest : List Char)
    (hskip : skipWs cs = ']' :: rest) :
    parseVal (f + 1) ('[' :: cs) = some (.arr [], rest) := by
  rw [parseVal, skipWs_cons_nonws (by decide)]
  show (match skipWs cs with
    | ']' :: r => some (JValue.arr [], r)
    | s1 => (parseElems f s1).map fun p => (JValue.arr p.1, p.2)) = some (JValue.arr [], rest)
  rw [hskip]
  simp

theorem parseVal_obj_empty (f : Nat) (cs rest : List Char)
    (hskip : skipWs cs = rbrace :: rest) :
    parseVal (f + 1) (lbrace :: cs) = some (.obj [], rest) := by
  rw [parseVal, skipWs_cons_nonws (by decide)]
  show (match skipWs cs with
    | d :: r =>
      if d = rbrace then some (JValue.obj [], r)
      else (parseMembers f (d :: r)).map fun p => (JValue.obj p.1, p.2)
    | [] => none) = some (JValue.obj [], rest)
  rw [hskip]
  show (if rbrace = rbrace then some (JValue.obj [], rest)
    else (parseMembers f (rbrace :: rest)).map fun p => (JValue.obj p.1, p.2)) =
    some (JValue.obj [], rest)
  rw [if_pos rfl]

theorem indent_roundtrip : ∀ (v : JValue) (lvl maxl fuel : Nat) (rest : List Char),
    goodKeysB v = true → jsize v ≤ fuel →
    (∀ d t, rest = d :: t → isDigit09 d = false) →
    parseVal fuel (indent_json_2levels v lvl maxl ++ rest) = some (v, rest) := by
  intro v
  induction v using JValue.inductionOn with
  | hnull =>
    intro lvl maxl fuel rest _ hfuel hrest
    rw [indent_scalar (by intro es h; cases h) (by intro ms h; cases h), dumps]
    rw [jsize] at hfuel
    obtain ⟨f, rfl⟩ : ∃ f, fuel = f + 1 := ⟨fuel - 1, by omega⟩
    exact parseVal_null f rest
  | hbool b =>
    intro lvl maxl fuel rest _ hfuel hrest
    rw [indent_scalar (by intro es h; cases h) (by intro ms h; cases h)]
    rw [jsize] at hfuel
    obtain ⟨f, rfl⟩ : ∃ f, fuel = f + 1 := ⟨fuel - 1, by omega⟩
    cases b
    · rw [dumps]
      exact parseVal_boolF f rest
    · rw [dumps]
      exact parseVal_boolT f rest
  | hnum n =>
    intro lvl maxl fuel rest _ hfuel hrest
    rw [indent_scalar (by intro es h; cases h) (by intro ms h; cases h), dumps]
    rw [jsize] at hfuel
    obtain ⟨f, rfl⟩ : ∃ f, fuel = f + 1 := ⟨fuel - 1, by omega⟩
    exact parseVal_num f n rest hrest
  | hstr s =>
    intro lvl maxl fuel rest _ hfuel hrest
    rw [indent_scalar (by intro es h; cases h) (by intro ms h; cases h), dumps]
    rw [jsize] at hfuel
    obtain ⟨f, rfl⟩ : ∃ f, fuel = f + 1 := ⟨fuel - 1, by omega⟩
    exact parseVal_str f s rest
  | harr es ih =>
    intro lvl maxl fuel rest hgood hfuel hrest
    have hsub := goodKeysB_arr hgood
    rw [jsize_arr] at hfuel
    obtain ⟨f, rfl⟩ : ∃ f, fuel = f + 1 := ⟨fuel - 1, by omega⟩
    by_cases hcut : maxl ≤ lvl
    · rw [indent_of_cutoff hcut]
      cases es with
      | nil =>
        have hshape : dumps (.arr []) ++ rest = '[' :: (']' :: rest) := by
          rw [dumps_arr]
          simp [commaJoin, List.intercalate]
        rw [hshape]
        exact parseVal_arr_empty f _ rest (skipWs_cons_nonws (by decide) _)
      | cons e es2 =>
        have helem : ∀ x ∈ e :: es2, ∀ (g : Nat) (r : List Char), jsize x ≤ g →
            (∀ d t, r = d :: t → isDigit09 d = false) →
            parseVal g (dumps x ++ r) = some (x, r) := by
          intro x hx g r hg hr
          rw [← indent_of_cutoff (le_refl 0)]
          exact ih x hx 0 0 g r (hsub x hx) hg hr
        obtain ⟨c0, t0, hdt, hws0, hne0, -⟩ := indent_head e 0 0
        rw [indent_of_cutoff (le_refl 0)] at hdt
        obtain ⟨y, hy⟩ : ∃ y, List.intercalate [','] ((e :: es2).map dumps) = dumps e ++ y :=
          intercalate_map_cons_exists _ _ e es2
        have hshape : dumps (.arr (e :: es2)) ++ rest =
            '[' :: (commaJoin ((e :: es2).map dumps) ++ (']' :: rest)) := by
          rw [dumps_arr]
          simp [List.append_assoc]
        have hskip2 : skipWs (commaJoin ((e :: es2).map dumps) ++ (']' :: rest)) =
            c0 :: ((t0 ++ y) ++ (']' :: rest)) := by
          unfold commaJoin
          rw [hy, hdt, List.cons_append, List.cons_append]
          exact skipWs_cons_nonws hws0 _
        rw [hshape, parseVal_arr_step f _ c0 _ hskip2 hne0]
        have hok : parseElems f
            (List.intercalate (',' :: ([] : List Char)) ((e :: es2).map dumps) ++
              (']' :: rest)) = some (e :: es2, rest) :=
          parseElems_ok dumps (e :: es2) f [] [] [] rest (List.cons_ne_nil e es2)
            (by simp) (by simp) (by simp) helem (by omega)
        have halign : commaJoin ((e :: es2).map dumps) ++ (']' :: rest) =
            List.intercalate (',' :: ([] : List Char)) ((e :: es2).map dumps) ++
              (']' :: rest) := rfl
        rw [halign, hok]
        rfl
    · have hlt : lvl < maxl := by omega
      have hwC : ∀ c ∈ '\n' :: indentSp lvl, isWsChar c = true := by
        intro c hc
        rcases List.mem_cons.mp hc with h | h
        · rw [h]; decide
        · exact indentSp_ws lvl c h
      have hwpad : ∀ c ∈ '\n' :: indentSp (lvl + 1), isWsChar c = true := by
        intro c hc
        rcases List.mem_cons.mp hc with h | h
        · rw [h]; decide
        · exact indentSp_ws (lvl + 1) c h
      cases es with
      | nil =>
        have hshape : indent_json_2levels (.arr []) lvl maxl ++ rest =
            '[' :: (('\n' :: indentSp lvl) ++ (']' :: rest)) := by
          rw [indent_arr hlt []]
          simp [joinNl, withCommas, List.intercalate, List.intersperse, List.append_assoc]
        rw [hshape]
        refine parseVal_arr_empty f _ rest ?_
        rw [skipWs_ws_append hwC]
        exact skipWs_cons_nonws (by decide) _
      | cons e es2 =>
        have helem : ∀ x ∈ e :: es2, ∀ (g : Nat) (r : List Char), jsize x ≤ g →
            (∀ d t, r = d :: t → isDigit09 d = false) →
            parseVal g (indent_json_2levels x (lvl + 1) maxl ++ r) = some (x, r) := by
          intro x hx g r hg hr
          exact ih x hx (lvl + 1) maxl g r (hsub x hx) hg hr
        have hfloat : List.intercalate (',' :: '\n' :: [])
            ((e :: es2).map fun x => indentSp (lvl + 1) ++
              indent_json_2levels x (lvl + 1) maxl) =
            indentSp (lvl + 1) ++ List.intercalate (',' :: '\n' :: indentSp (lvl + 1))
              ((e :: es2).map fun x => indent_json_2levels x (lvl + 1) maxl) :=
          intercalate_map_append_arr (indentSp (lvl + 1)) (',' :: '\n' :: [])
            (fun x => indent_json_2levels x (lvl + 1) maxl) (e :: es2)
            (List.cons_ne_nil e es2)
        have hshape : indent_json_2levels (.arr (e :: es2)) lvl maxl ++ rest =
            '[' :: (('\n' :: indentSp (lvl + 1)) ++
              (List.intercalate (',' :: '\n' :: indentSp (lvl + 1))
                ((e :: es2).map fun x => indent_json_2levels x (lvl + 1) maxl) ++
                (('\n' :: indentSp lvl) ++ (']' :: rest)))) := by
          rw [indent_arr_eq hlt (e :: es2) (List.cons_ne_nil e es2), hfloat]
          simp [List.append_assoc]
        obtain ⟨y, hy⟩ : ∃ y, List.intercalate (',' :: '\n' :: indentSp (lvl + 1))
            ((e :: es2).map fun x => indent_json_2levels x (lvl + 1) maxl) =
            indent_json_2levels e (lvl + 1) maxl ++ y :=
          intercalate_map_cons_exists _ _ e es2
        obtain ⟨c0, t0, hdt, hws0, hne0, -⟩ := indent_head e (lvl + 1) maxl
        have hskip2 : skipWs (('\n' :: indentSp (lvl + 1)) ++
            (List.intercalate (',' :: '\n' :: indentSp (lvl + 1))
              ((e :: es2).map fun x => indent_json_2levels x (lvl + 1) maxl) ++
              (('\n' :: indentSp lvl) ++ (']' :: rest)))) =
            c0 :: ((t0 ++ y) ++ (('\n' :: indentSp lvl) ++ (']' :: rest))) := by
          rw [skipWs_ws_append hwpad, hy, hdt, List.cons_append, List.cons_append]
          exact skipWs_cons_nonws hws0 _
        rw [hshape, parseVal_arr_step f _ c0 _ hskip2 hne0]
        have hok : parseElems f (('\n' :: indentSp (lvl + 1)) ++
            (List.intercalate (',' :: '\n' :: indentSp (lvl + 1))
              ((e :: es2).map fun x => indent_json_2levels x (lvl + 1) maxl) ++
              (('\n' :: indentSp lvl) ++ (']' :: rest)))) = some (e :: es2, rest) :=
          parseElems_ok (fun x => indent_json_2levels x (lvl + 1) maxl) (e :: es2) f
            ('\n' :: indentSp (lvl + 1)) ('\n' :: indentSp (lvl + 1))
            ('\n' :: indentSp lvl) rest (List.cons_ne_nil e es2)
            hwpad hwpad hwC helem (by omega)
        rw [hok]
        rfl
  | hobj ms ih =>
    intro lvl maxl fuel rest hgood hfuel hrest
    have hsub := goodKeysB_obj hgood
    rw [jsize_obj] at hfuel
    obtain ⟨f, rfl⟩ : ∃ f, fuel = f + 1 := ⟨fuel - 1, by omega⟩
    by_cases hcut : maxl ≤ lvl
    · rw [indent_of_cutoff hcut]
      cases ms with
      | nil =>
        have hshape : dumps (.obj []) ++ rest = lbrace :: (rbrace :: rest) := by
          rw [dumps_obj]
          simp [commaJoin, List.intercalate]
        rw [hshape]
        exact parseVal_obj_empty f _ rest (skipWs_cons_nonws (by decide) _)
      | cons m ms2 =>
        have hKBc : ∀ x ∈ m :: ms2, ∀ r : List Char,
            parseStrAux ((x.1.map escapeChar).flatten ++ '"' :: r) = some (x.1, r) :=
          fun x _ r => parseStrAux_escaped x.1 r
        have hRc : ∀ x ∈ m :: ms2, ∀ (g : Nat) (r : List Char), jsize x.2 ≤ g →
            (∀ d t, r = d :: t → isDigit09 d = false) →
            parseVal g (dumps x.2 ++ r) = some (x.2, r) := by
          intro x hx g r hg hr
          rw [← indent_of_cutoff (le_refl 0)]
          exact ih x hx 0 0 g r (hsub x hx).2 hg hr
        obtain ⟨y, hy0⟩ := intercalate_map_cons_exists [',']
          (fun x => escapeString x.1 ++ ':' :: dumps x.2) m ms2
        have hy : List.intercalate [',']
            ((m :: ms2).map fun x => escapeString x.1 ++ ':' :: dumps x.2) =
            '"' :: ((m.1.map escapeChar).flatten ++ ('"' :: ':' :: (dumps m.2 ++ y))) := by
          rw [hy0]
          simp [escapeString, List.append_assoc]
        have hshape : dumps (.obj (m :: ms2)) ++ rest =
            lbrace :: (commaJoin ((m :: ms2).map fun x => escapeString x.1 ++ ':' :: dumps x.2) ++
              (rbrace :: rest)) := by
          rw [dumps_obj]
          simp [List.append_assoc]
        have hskip2 : skipWs (commaJoin
            ((m :: ms2).map fun x => escapeString x.1 ++ ':' :: dumps x.2) ++
            (rbrace :: rest)) =
            '"' :: (((m.1.map escapeChar).flatten ++ ('"' :: ':' :: (dumps m.2 ++ y))) ++
              (rbrace :: rest)) := by
          unfold commaJoin
          rw [hy, List.cons_append]
          exact skipWs_cons_nonws (by decide) _
        rw [hshape, parseVal_obj_step f _ '"' _ hskip2 (by decide)]
        have hok : parseMembers f
            (List.intercalate (',' :: ([] : List Char))
              ((m :: ms2).map fun x =>
                '"' :: ((x.1.map escapeChar).flatten ++ ('"' :: ':' :: dumps x.2))) ++
              (rbrace :: rest)) = some (m :: ms2, rest) :=
          parseMembers_ok dumps (fun k => (k.map escapeChar).flatten) (m :: ms2) f
            [] [] [] [] rest (List.cons_ne_nil m ms2)
            (by simp) (by simp) (by simp) (by simp) hKBc hRc (by omega)
        have halign : commaJoin
            ((m :: ms2).map fun x => escapeString x.1 ++ ':' :: dumps x.2) ++
            (rbrace :: rest) =
            List.intercalate (',' :: ([] : List Char))
              ((m :: ms2).map fun x =>
                '"' :: ((x.1.map escapeChar).flatten ++ ('"' :: ':' :: dumps x.2))) ++
              (rbrace :: rest) := by
          unfold commaJoin
          simp [escapeString]
        rw [halign, hok]
        rfl
    · have hlt : lvl < maxl := by omega
      have hwC : ∀ c ∈ '\n' :: indentSp lvl, isWsChar c = true := by
        intro c hc
        rcases List.mem_cons.mp hc with h | h
        · rw [h]; decide
        · exact indentSp_ws lvl c h
      have hwpad : ∀ c ∈ '\n' :: indentSp (lvl + 1), isWsChar c = true := by
        intro c hc
        rcases List.mem_cons.mp hc with h | h
        · rw [h]; decide
        · exact indentSp_ws (lvl + 1) c h
      cases ms with
      | nil =>
        have hshape : indent_json_2levels (.obj []) lvl maxl ++ rest =
            lbrace :: (('\n' :: indentSp lvl) ++ (rbrace :: rest)) := by
          rw [indent_obj hlt []]
          simp [joinNl, withCommas, List.intercalate, List.intersperse, List.append_assoc]
        rw [hshape]
        refine parseVal_obj_empty f _ rest ?_
        rw [skipWs_ws_append hwC]
        exact skipWs_cons_nonws (by decide) _
      | cons m ms2 =>
        have hKB : ∀ x ∈ m :: ms2, ∀ r : List Char,
            parseStrAux (x.1 ++ '"' :: r) = some (x.1, r) := by
          intro x hx r
          exact parseStrAux_verbatim x.1 (hsub x hx).1 r
        have hR : ∀ x ∈ m :: ms2, ∀ (g : Nat) (r : List Char), jsize x.2 ≤ g →
            (∀ d t, r = d :: t → isDigit09 d = false) →
            parseVal g (indent_json_2levels x.2 (lvl + 1) maxl ++ r) = some (x.2, r) := by
          intro x hx g r hg hr
          exact ih x hx (lvl + 1) maxl g r (hsub x hx).2 hg hr
        have hfloat : List.intercalate (',' :: '\n' :: [])
            ((m :: ms2).map fun x => indentSp (lvl + 1) ++
              ('"' :: (x.1 ++ ('"' :: ':' :: (' ' ::
                indent_json_2levels x.2 (lvl + 1) maxl))))) =
            indentSp (lvl + 1) ++ List.intercalate (',' :: '\n' :: indentSp (lvl + 1))
              ((m :: ms2).map fun x =>
                '"' :: (x.1 ++ ('"' :: ':' :: (' ' ::
                  indent_json_2levels x.2 (lvl + 1) maxl)))) :=
          intercalate_map_append (indentSp (lvl + 1)) (',' :: '\n' :: [])
            (fun x => '"' :: (x.1 ++ ('"' :: ':' :: (' ' ::
              indent_json_2levels x.2 (lvl + 1) maxl)))) (m :: ms2)
            (List.cons_ne_nil m ms2)
        have hshape : indent_json_2levels (.obj (m :: ms2)) lvl maxl ++ rest =
            lbrace :: (('\n' :: indentSp (lvl + 1)) ++
              (List.intercalate (',' :: '\n' :: indentSp (lvl + 1))
                ((m :: ms2).map fun x =>
                  '"' :: (x.1 ++ ('"' :: ':' :: (' ' ::
                    indent_json_2levels x.2 (lvl + 1) maxl)))) ++
                (('\n' :: indentSp lvl) ++ (rbrace :: rest)))) := by
          rw [indent_obj_eq hlt (m :: ms2) (List.cons_ne_nil m ms2)]
          simp only [List.append_assoc, List.cons_append]
          rw [hfloat]
          simp [List.append_assoc]
        obtain ⟨y, hy⟩ : ∃ y, List.intercalate (',' :: '\n' :: indentSp (lvl + 1))
            ((m :: ms2).map fun x =>
              '"' :: (x.1 ++ ('"' :: ':' :: (' ' ::
                indent_json_2levels x.2 (lvl + 1) maxl)))) =
            '"' :: ((m.1 ++ ('"' :: ':' :: (' ' ::
              indent_json_2levels m.2 (lvl + 1) maxl))) ++ y) :=
          intercalate_map_cons_exists _ _ m ms2
        have hskip2 : skipWs (('\n' :: indentSp (lvl + 1)) ++
            (List.intercalate (',' :: '\n' :: indentSp (lvl + 1))
              ((m :: ms2).map fun x =>
                '"' :: (x.1 ++ ('"' :: ':' :: (' ' ::
                  indent_json_2levels x.2 (lvl + 1) maxl)))) ++
              (('\n' :: indentSp lvl) ++ (rbrace :: rest)))) =
            '"' :: (((m.1 ++ ('"' :: ':' :: (' ' ::
              indent_json_2levels m.2 (lvl + 1) maxl))) ++ y) ++
              (('\n' :: indentSp lvl) ++ (rbrace :: rest))) := by
          rw [skipWs_ws_append hwpad, hy, List.cons_append]
          exact skipWs_cons_nonws (by decide) _
        rw [hshape, parseVal_obj_step f _ '"' _ hskip2 (by decide)]
        have hok : parseMembers f (('\n' :: indentSp (lvl + 1)) ++
            (List.intercalate (',' :: '\n' :: indentSp (lvl + 1))
              ((m :: ms2).map fun x =>
                '"' :: (x.1 ++ ('"' :: ':' :: (' ' ::
                  indent_json_2levels x.2 (lvl + 1) maxl)))) ++
              (('\n' :: indentSp lvl) ++ (rbrace :: rest)))) = some (m :: ms2, rest) :=
          parseMembers_ok (fun v => indent_json_2levels v (lvl + 1) maxl) (fun k => k)
            (m :: ms2) f ('\n' :: indentSp (lvl + 1)) ('\n' :: indentSp (lvl + 1))
            [' '] ('\n' :: indentSp lvl) rest (List.cons_ne_nil m ms2)
            hwpad hwpad (by intro c hc; rw [List.mem_singleton] at hc; rw [hc]; decide)
            hwC hKB hR (by omega)
        rw [hok]
        rfl

/-- C10: for every JSON value built from dicts, lists and scalars in
which every dict key contains no characters requiring JSON string
escaping (no double quote, backslash, or control character — the
`goodKeysB` predicate, needed because `indent_json_2levels`
interpolates dict keys verbatim without escaping), the output of the
two-level pretty printer `indent_json_2levels(obj)` is valid JSON and
parsing it back with `json.loads` yields a value equal to the original
input. -/
theorem pretty_print_round_trip : ∀ v : JValue, goodKeysB v = true →
    jsonLoads (indent_json_2levels v 0 2) = some v := by
  intro v hgood
  unfold jsonLoads
  have hlen := jsize_le_indent v 0 2
  have h := indent_roundtrip v 0 2 ((indent_json_2levels v 0 2).length + 1) [] hgood
    (by omega) (by intro d t hdt; simp at hdt)
  rw [List.append_nil] at h
  rw [h]
  rfl

/-- Witness for C10 at the concrete nested value `\x7b"a": [1]\x7d`: the
key `"a"` satisfies the no-escaping condition and the rendered text
parses back to the original value. -/
theorem pretty_print_round_trip_witness :
    goodKeysB (JValue.obj [(['a'], JValue.arr [JValue.num 1])]) = true ∧
      jsonLoads (indent_json_2levels (JValue.obj [(['a'], JValue.arr [JValue.num 1])]) 0 2) =
        some (JValue.obj [(['a'], JValue.arr [JValue.num 1])]) :=
  ⟨by simp [goodKeysB, List.attach, List.attachWith, List.pmap, goodKeyChar],
    pretty_print_round_trip (JValue.obj [(['a'], JValue.arr [JValue.num 1])])
      (by simp [goodKeysB, List.attach, List.attachWith, List.pmap, goodKeyChar])⟩
